import Mathlib

/-!
Verification of core LevelDB components against their C++ sources.

Byte strings (C++ `char*` / `std::string` / `Slice`) are modelled as
`List Nat` with every element < 256; machine integers are `Nat` with
explicit `% 2 ^ w` where C++ overflow semantics matter.
-/

namespace LevelDB

/-! ## util/coding.cc : varint encoding and decoding -/

/-- `EncodeVarint32` from util/coding.cc: the five-way branch on the
magnitude of `v`.  Each `*(ptr++) = e` store to a `uint8_t` is modelled
as `e % 256`; `B = 128` is the continuation bit. -/
def EncodeVarint32 (v : Nat) : List Nat :=
  if v < 1 <<< 7 then
    [v % 256]
  else if v < 1 <<< 14 then
    [(v ||| 128) % 256, (v >>> 7) % 256]
  else if v < 1 <<< 21 then
    [(v ||| 128) % 256, ((v >>> 7) ||| 128) % 256, (v >>> 14) % 256]
  else if v < 1 <<< 28 then
    [(v ||| 128) % 256, ((v >>> 7) ||| 128) % 256, ((v >>> 14) ||| 128) % 256,
     (v >>> 21) % 256]
  else
    [(v ||| 128) % 256, ((v >>> 7) ||| 128) % 256, ((v >>> 14) ||| 128) % 256,
     ((v >>> 21) ||| 128) % 256, (v >>> 28) % 256]

/-- `PutVarint32` from util/coding.cc: append the varint encoding of `v`
to `dst`. -/
def PutVarint32 (dst : List Nat) (v : Nat) : List Nat :=
  dst ++ EncodeVarint32 v

/-- `EncodeVarint64` from util/coding.cc: the `while (v >= B)` loop. -/
def EncodeVarint64 (v : Nat) : List Nat :=
  if 128 ≤ v then
    (v ||| 128) % 256 :: EncodeVarint64 (v >>> 7)
  else
    [v % 256]
termination_by v
decreasing_by
  simp only [Nat.shiftRight_eq_div_pow]
  omega

/-- `PutVarint64` from util/coding.cc. -/
def PutVarint64 (dst : List Nat) (v : Nat) : List Nat :=
  dst ++ EncodeVarint64 v

/-- Shared shape of `GetVarint32PtrFallback` and `GetVarint64Ptr` from
util/coding.cc: the loop `for (shift = 0; shift <= maxShift && p < limit;
shift += 7)`, accumulating `result |= ((byte & 127) << shift)` in a
machine word of `2 ^ w = M` values.  The two source functions differ only
in the constants `maxShift` (28 vs 63) and the word size. -/
def GetVarintPtrLoop (maxShift M : Nat) : List Nat → Nat → Nat → Option (Nat × List Nat)
  | [], _, _ => none
  | byte :: rest, shift, result =>
    if shift ≤ maxShift then
      if byte &&& 128 ≠ 0 then
        GetVarintPtrLoop maxShift M rest (shift + 7)
          (result ||| (((byte &&& 127) <<< shift) % M))
      else
        some (result ||| ((byte <<< shift) % M), rest)
    else
      none

/-- `GetVarint32PtrFallback` from util/coding.cc (32-bit word,
`shift <= 28`). -/
def GetVarint32PtrFallback (p : List Nat) (shift result : Nat) : Option (Nat × List Nat) :=
  GetVarintPtrLoop 28 (2 ^ 32) p shift result

/-- `GetVarint32Ptr` from util/coding.h: the inline one-byte fast path,
falling back to `GetVarint32PtrFallback`. -/
def GetVarint32Ptr (p : List Nat) : Option (Nat × List Nat) :=
  match p with
  | byte :: rest =>
    if byte &&& 128 = 0 then some (byte, rest)
    else GetVarint32PtrFallback (byte :: rest) 0 0
  | [] => GetVarint32PtrFallback [] 0 0

/-- `GetVarint32` from util/coding.cc: on success the input slice is
advanced past the consumed bytes (here: the remainder is returned). -/
def GetVarint32 (input : List Nat) : Option (Nat × List Nat) :=
  GetVarint32Ptr input

/-- `GetVarint64Ptr` from util/coding.cc (64-bit word, `shift <= 63`). -/
def GetVarint64Ptr (p : List Nat) : Option (Nat × List Nat) :=
  GetVarintPtrLoop 63 (2 ^ 64) p 0 0

/-- `GetVarint64` from util/coding.cc. -/
def GetVarint64 (input : List Nat) : Option (Nat × List Nat) :=
  GetVarint64Ptr input

/-! ### Bitwise arithmetic bridges -/

theorem lor_shiftLeft_eq_add {a n : Nat} (b : Nat) (h : a < 2 ^ n) :
    a ||| b <<< n = a + b * 2 ^ n := by
  apply Nat.eq_of_testBit_eq
  intro i
  rw [Nat.testBit_lor, Nat.testBit_shiftLeft,
    show a + b * 2 ^ n = 2 ^ n * b + a by ring,
    Nat.testBit_mul_pow_two_add b h i]
  by_cases hi : i < n
  · have hni : ¬ n ≤ i := by omega
    simp [hi, hni]
  · have hni : n ≤ i := by omega
    have ha : a.testBit i = false := by
      apply Nat.testBit_lt_two_pow
      exact lt_of_lt_of_le h (Nat.pow_le_pow_right (by norm_num) hni)
    simp [hi, hni, ha]

theorem lor_128_mod_256 (x : Nat) : (x ||| 128) % 256 = x % 128 + 128 := by
  apply Nat.eq_of_testBit_eq
  intro i
  rw [show (256 : Nat) = 2 ^ 8 by norm_num, Nat.testBit_mod_two_pow,
    show x % 128 + 128 = 2 ^ 7 * 1 + x % 128 by omega,
    Nat.testBit_mul_pow_two_add 1 (by omega) i,
    Nat.testBit_lor]
  rcases Nat.lt_trichotomy i 7 with h7 | h7 | h7
  · have h8 : i < 8 := by omega
    have : (128 : Nat).testBit i = false := by
      rw [show (128 : Nat) = 2 ^ 7 by norm_num, Nat.testBit_two_pow]
      simp
      omega
    simp [h7, h8, this]
    rw [show (128 : Nat) = 2 ^ 7 by norm_num, Nat.testBit_mod_two_pow]
    simp [h7]
  · subst h7
    have : (128 : Nat).testBit 7 = true := by decide
    simp [this]
  · have h8 : ¬ i < 8 ∨ i < 8 := by omega
    have hlt7 : ¬ i < 7 := by omega
    have h128 : (128 : Nat).testBit i = false := by
      rw [show (128 : Nat) = 2 ^ 7 by norm_num, Nat.testBit_two_pow]
      simp
      omega
    have h1 : (1 : Nat).testBit (i - 7) = false := by
      rw [show (1 : Nat) = 2 ^ 0 by norm_num, Nat.testBit_two_pow]
      simp
      omega
    by_cases hi8 : i < 8
    · omega
    · simp [hi8, hlt7, h128, h1]

theorem land_127_eq_mod (x : Nat) : x &&& 127 = x % 128 := by
  have := Nat.and_pow_two_sub_one_eq_mod x 7
  norm_num at this
  exact this

theorem cont_byte_test (x : Nat) : (x % 128 + 128) &&& 128 ≠ 0 := by
  have hx : x % 128 < 128 := Nat.mod_lt _ (by norm_num)
  have key : ∀ a < 128, (a + 128) &&& 128 = 128 := by decide
  rw [key (x % 128) hx]
  norm_num

theorem small_byte_test {x : Nat} (h : x < 128) : x &&& 128 = 0 := by
  have key : ∀ a < 128, a &&& 128 = 0 := by decide
  exact key x h

theorem pow_lt_pow_iff_two {a b : Nat} : 2 ^ a < 2 ^ b ↔ a < b :=
  Nat.pow_lt_pow_iff_right (by norm_num)

/-- Decoding loop applied to a varint encoding: the generic invariant
covering both `GetVarint32PtrFallback` and `GetVarint64Ptr`. -/
theorem getVarintPtrLoop_encode (maxShift w : Nat)
    (hw : maxShift < w)
    (hside : ∀ s, 7 ∣ s → s + 8 ≤ w → s + 7 ≤ maxShift) :
    ∀ v rest shift result, 7 ∣ shift → shift ≤ maxShift → result < 2 ^ shift →
      v < 2 ^ (w - shift) →
      GetVarintPtrLoop maxShift (2 ^ w) (EncodeVarint64 v ++ rest) shift result =
        some (result + v * 2 ^ shift, rest) := by
  intro v
  induction v using Nat.strong_induction_on with
  | _ v ih =>
    intro rest shift result h7 hsh hres hv
    have hshw : shift < w := lt_of_le_of_lt hsh hw
    by_cases h128 : 128 ≤ v
    · -- continuation byte
      have hsw8 : shift + 8 ≤ w := by
        have : (2 : Nat) ^ 7 < 2 ^ (w - shift) := lt_of_le_of_lt h128 hv
        have := pow_lt_pow_iff_two.mp this
        omega
      rw [EncodeVarint64, if_pos h128, List.cons_append, GetVarintPtrLoop,
        if_pos hsh, lor_128_mod_256, if_pos (cont_byte_test v)]
      have hb127 : (v % 128 + 128) &&& 127 = v % 128 := by
        rw [land_127_eq_mod]
        omega
      have hmodlt : v % 128 < 2 ^ 7 := Nat.mod_lt _ (by norm_num)
      have hshmod : ((v % 128) <<< shift) % 2 ^ w = (v % 128) <<< shift := by
        apply Nat.mod_eq_of_lt
        rw [Nat.shiftLeft_eq]
        calc v % 128 * 2 ^ shift < 2 ^ 7 * 2 ^ shift :=
              mul_lt_mul_of_pos_right hmodlt (by positivity)
          _ = 2 ^ (shift + 7) := by rw [← pow_add]; ring_nf
          _ ≤ 2 ^ w := Nat.pow_le_pow_right (by norm_num) (by omega)
      rw [hb127, hshmod, lor_shiftLeft_eq_add _ hres]
      have hdiv : v >>> 7 = v / 128 := by
        rw [Nat.shiftRight_eq_div_pow]
      have hrec := ih (v >>> 7)
        (by rw [hdiv]; exact Nat.div_lt_self (by omega) (by norm_num))
        rest (shift + 7) (result + v % 128 * 2 ^ shift)
        (by omega) (hside shift h7 hsw8)
        (by
          have h1 : v % 128 ≤ 127 := by omega
          have h2 : v % 128 * 2 ^ shift ≤ 127 * 2 ^ shift :=
            Nat.mul_le_mul_right _ h1
          have h3 : (2 : Nat) ^ (shift + 7) = 2 ^ shift * 128 := by
            rw [pow_add]; norm_num
          omega)
        (by
          rw [hdiv, Nat.div_lt_iff_lt_mul (by norm_num : (0 : Nat) < 128)]
          have h3 : (2 : Nat) ^ (w - shift) = 2 ^ (w - (shift + 7)) * 128 := by
            rw [show w - shift = (w - (shift + 7)) + 7 by omega, pow_add]
            norm_num
          omega)
      rw [hrec, hdiv]
      have harith : result + v % 128 * 2 ^ shift + v / 128 * 2 ^ (shift + 7) =
          result + v * 2 ^ shift := by
        have hsplit : (2 : Nat) ^ (shift + 7) = 2 ^ shift * 128 := by
          rw [pow_add]; norm_num
        rw [hsplit, add_assoc,
          show v % 128 * 2 ^ shift + v / 128 * (2 ^ shift * 128) =
            (v % 128 + 128 * (v / 128)) * 2 ^ shift by ring,
          Nat.mod_add_div]
      rw [harith]
    · -- final byte
      have hvlt : v < 128 := by omega
      rw [EncodeVarint64, if_neg h128,
        show v % 256 = v from Nat.mod_eq_of_lt (by omega),
        List.singleton_append, GetVarintPtrLoop, if_pos hsh]
      have h0 : v &&& 128 = 0 := small_byte_test hvlt
      rw [if_neg (by simp [h0])]
      have hmod : (v <<< shift) % 2 ^ w = v <<< shift := by
        apply Nat.mod_eq_of_lt
        rw [Nat.shiftLeft_eq]
        calc v * 2 ^ shift < 2 ^ (w - shift) * 2 ^ shift :=
              mul_lt_mul_of_pos_right hv (by positivity)
          _ = 2 ^ w := by rw [← pow_add]; congr 1; omega
      rw [hmod, lor_shiftLeft_eq_add _ hres]

/-- For 32-bit values the five-way branch of `EncodeVarint32` produces the
same bytes as the `EncodeVarint64` loop. -/
theorem encodeVarint32_eq (v : Nat) (hv : v < 2 ^ 32) :
    EncodeVarint32 v = EncodeVarint64 v := by
  have s7 : ∀ x : Nat, x >>> 7 = x / 128 := fun x => by
    rw [Nat.shiftRight_eq_div_pow]
  have s14 : ∀ x : Nat, x >>> 14 = x / 16384 := fun x => by
    rw [Nat.shiftRight_eq_div_pow]
  have s21 : ∀ x : Nat, x >>> 21 = x / 2097152 := fun x => by
    rw [Nat.shiftRight_eq_div_pow]
  have sadd : ∀ (x a b : Nat), (x >>> a) >>> b = x >>> (a + b) := fun x a b =>
    (Nat.shiftRight_add x a b).symm
  rw [EncodeVarint32]
  by_cases h1 : v < 1 <<< 7
  · have h1n : v < 128 := by simpa using h1
    rw [if_pos h1, EncodeVarint64, if_neg (by omega)]
  · have h1n : 128 ≤ v := by simpa using h1
    rw [if_neg h1]
    by_cases h2 : v < 1 <<< 14
    · have h2n : v < 16384 := by simpa using h2
      rw [if_pos h2, EncodeVarint64, if_pos h1n,
        EncodeVarint64, if_neg (by rw [s7]; omega)]
    · have h2n : 16384 ≤ v := by simpa using h2
      rw [if_neg h2]
      by_cases h3 : v < 1 <<< 21
      · have h3n : v < 2097152 := by simpa using h3
        rw [if_pos h3, EncodeVarint64, if_pos h1n,
          EncodeVarint64, if_pos (by rw [s7]; omega), sadd v 7 7,
          EncodeVarint64, if_neg (by rw [s14]; omega)]
      · have h3n : 2097152 ≤ v := by simpa using h3
        rw [if_neg h3]
        by_cases h4 : v < 1 <<< 28
        · have h4n : v < 268435456 := by simpa using h4
          rw [if_pos h4, EncodeVarint64, if_pos h1n,
            EncodeVarint64, if_pos (by rw [s7]; omega), sadd v 7 7,
            EncodeVarint64, if_pos (by rw [s14]; omega), sadd v 14 7,
            EncodeVarint64, if_neg (by rw [s21]; omega)]
        · have h4n : 268435456 ≤ v := by simpa using h4
          rw [if_neg h4, EncodeVarint64, if_pos h1n,
            EncodeVarint64, if_pos (by rw [s7]; omega), sadd v 7 7,
            EncodeVarint64, if_pos (by rw [s14]; omega), sadd v 14 7,
            EncodeVarint64, if_pos (by rw [s21]; omega), sadd v 21 7,
            EncodeVarint64,
            if_neg (by rw [Nat.shiftRight_eq_div_pow]; norm_num; omega)]

theorem getVarint64_encode (v : Nat) (rest : List Nat) (hv : v < 2 ^ 64) :
    GetVarint64 (PutVarint64 [] v ++ rest) = some (v, rest) := by
  unfold GetVarint64 GetVarint64Ptr PutVarint64
  simp only [List.nil_append]
  have h := getVarintPtrLoop_encode 63 64 (by omega)
    (by intro s hdvd hle; omega) v rest 0 0 (by omega) (by omega)
    (by norm_num) (by simpa using hv)
  simpa using h

theorem getVarint32_encode (v : Nat) (rest : List Nat) (hv : v < 2 ^ 32) :
    GetVarint32 (PutVarint32 [] v ++ rest) = some (v, rest) := by
  unfold GetVarint32 PutVarint32
  simp only [List.nil_append]
  by_cases h1 : v < 128
  · have he : EncodeVarint32 v = [v] := by
      rw [EncodeVarint32, if_pos (by simpa using h1), Nat.mod_eq_of_lt (by omega)]
    rw [he, List.singleton_append, GetVarint32Ptr, if_pos (small_byte_test h1)]
  · have henc : EncodeVarint32 v = EncodeVarint64 v := encodeVarint32_eq v hv
    have hhead : EncodeVarint64 v = (v % 128 + 128) :: EncodeVarint64 (v >>> 7) := by
      rw [EncodeVarint64, if_pos (by omega), lor_128_mod_256]
    rw [henc, hhead, List.cons_append, GetVarint32Ptr,
      if_neg (cont_byte_test v)]
    unfold GetVarint32PtrFallback
    rw [← List.cons_append, ← hhead]
    have h := getVarintPtrLoop_encode 28 32 (by omega)
      (by intro s hdvd hle; omega) v rest 0 0 (by omega) (by omega)
      (by norm_num) (by simpa using hv)
    simpa using h

/-- C9: Varint encode/decode round-trips: for every 32-bit value `v`,
appending `PutVarint32 v` to a string and then decoding with `GetVarint32`
returns `v` and consumes exactly the appended bytes; the same holds for
every 64-bit value with `PutVarint64` and `GetVarint64`. -/
theorem varint_roundtrip :
    (∀ v rest, v < 2 ^ 32 →
      GetVarint32 (PutVarint32 [] v ++ rest) = some (v, rest)) ∧
    (∀ v rest, v < 2 ^ 64 →
      GetVarint64 (PutVarint64 [] v ++ rest) = some (v, rest)) :=
  ⟨getVarint32_encode, getVarint64_encode⟩

/-- Witness for C9 at the concrete values 300 (two bytes) and
123456789012345 (seven bytes). -/
theorem varint_roundtrip_witness :
    GetVarint32 (PutVarint32 [] 300 ++ [9]) = some (300, [9]) ∧
    GetVarint64 (PutVarint64 [] 123456789012345 ++ [1]) =
      some (123456789012345, [1]) :=
  ⟨varint_roundtrip.1 300 [9] (by norm_num),
   varint_roundtrip.2 123456789012345 [1] (by norm_num)⟩

/-! ## util/bloom.cc : BloomFilterPolicy -/

/-- Modelled from the spec: the `Hash` function of `util/hash.h` (used by
`BloomHash`) is not among the sources; the spec treats hashing as an
implementation detail of the filter policy.  It is modelled as a concrete
32-bit fold over the key bytes.  None of the bloom properties proved
below depends on the choice of this function. -/
def Hash (data : List Nat) (seed : Nat) : Nat :=
  data.foldl (fun h b => (h * 65599 + b) % 2 ^ 32) (seed % 2 ^ 32)

/-- `BloomHash` from util/bloom.cc: `Hash(key.data(), key.size(), 0xbc9f1d34)`. -/
def BloomHash (key : List Nat) : Nat :=
  Hash key 0xbc9f1d34

/-- The `BloomFilterPolicy` constructor from util/bloom.cc:
`k_ = bits_per_key * 0.69` truncated to an integer, then clamped by the
two `if`s to [1, 30].  The double multiplication is modelled as the exact
rational `69 / 100`; after clamping the two computations agree for every
`bits_per_key` (they could differ only at multiples of 100, all of which
clamp to 30). -/
def bloomK (bits_per_key : Nat) : Nat :=
  let k0 := bits_per_key * 69 / 100
  let k1 := if k0 < 1 then 1 else k0
  if k1 > 30 then 30 else k1

/-- `array[bitpos / 8] |= (1 << (bitpos % 8))` from `CreateFilter`. -/
def setBit (arr : List Nat) (bitpos : Nat) : List Nat :=
  arr.set (bitpos / 8) (arr.getD (bitpos / 8) 0 ||| 1 <<< (bitpos % 8))

/-- `delta = (h >> 17) | (h << 15)` in 32-bit arithmetic. -/
def bloomDelta (h : Nat) : Nat :=
  (h >>> 17) ||| ((h <<< 15) % 2 ^ 32)

/-- The inner `for (j = 0; j < k_; j++)` probe loop of `CreateFilter` for
one key: `h += delta` is 32-bit arithmetic. -/
def bloomSetBits (arr : List Nat) (h delta k bits : Nat) : List Nat :=
  match k with
  | 0 => arr
  | k' + 1 => bloomSetBits (setBit arr (h % bits)) ((h + delta) % 2 ^ 32) delta k' bits

/-- Body of the outer `for (i = 0; i < n; i++)` loop of `CreateFilter`:
probe all `k` positions for one key. -/
def bloomAddKey (k bits : Nat) (arr : List Nat) (key : List Nat) : List Nat :=
  let h := BloomHash key
  bloomSetBits arr h (bloomDelta h) k bits

/-- `BloomFilterPolicy::CreateFilter` from util/bloom.cc, applied to an
initially empty `dst`. -/
def CreateFilter (bits_per_key : Nat) (keys : List (List Nat)) : List Nat :=
  let k := bloomK bits_per_key
  let bits0 := keys.length * bits_per_key
  let bits1 := if bits0 < 64 then 64 else bits0
  let bytes := (bits1 + 7) / 8
  let bits := bytes * 8
  let array := keys.foldl (bloomAddKey k bits) (List.replicate bytes 0)
  array ++ [k]

/-- The `char` → `size_t` conversion applied by `KeyMayMatch` to the
stored probe count (`const size_t k = array[len - 1]`): `char` is signed
on the reference platform, so byte values ≥ 128 sign-extend. -/
def charToSizeT (b : Nat) : Nat :=
  if b < 128 then b else 2 ^ 64 - (256 - b)

/-- The probe loop of `KeyMayMatch`. -/
def bloomCheckBits (arr : List Nat) (h delta k bits : Nat) : Bool :=
  match k with
  | 0 => true
  | k' + 1 =>
    if arr.getD (h % bits / 8) 0 &&& 1 <<< (h % bits % 8) = 0 then false
    else bloomCheckBits arr ((h + delta) % 2 ^ 32) delta k' bits

/-- `BloomFilterPolicy::KeyMayMatch` from util/bloom.cc. -/
def KeyMayMatch (key : List Nat) (bloom_filter : List Nat) : Bool :=
  let len := bloom_filter.length
  if len < 2 then false
  else
    let bits := (len - 1) * 8
    let k := charToSizeT (bloom_filter.getD (len - 1) 0)
    if k > 30 then true
    else
      let h := BloomHash key
      bloomCheckBits bloom_filter h (bloomDelta h) k bits

/-- Specification-side view of one bit of the filter array. -/
def getBit (arr : List Nat) (bitpos : Nat) : Prop :=
  arr.getD (bitpos / 8) 0 &&& 1 <<< (bitpos % 8) ≠ 0

instance (arr : List Nat) (bitpos : Nat) : Decidable (getBit arr bitpos) := by
  unfold getBit
  infer_instance

/-- The sequence of 32-bit hash values probed for a key. -/
def hseq (h delta : Nat) : Nat → Nat
  | 0 => h
  | j + 1 => (hseq h delta j + delta) % 2 ^ 32

theorem and_lor_distrib_right (a b c : Nat) :
    (a ||| b) &&& c = (a &&& c) ||| (b &&& c) := by
  apply Nat.eq_of_testBit_eq
  intro i
  simp [Nat.testBit_lor, Nat.testBit_and, Bool.and_or_distrib_right]

theorem lor_ne_zero_left {a : Nat} (b : Nat) (h : a ≠ 0) : a ||| b ≠ 0 := by
  intro hc
  apply h
  apply Nat.eq_of_testBit_eq
  intro i
  have hb := congrArg (fun x => Nat.testBit x i) hc
  simp only [Nat.testBit_lor, Nat.zero_testBit, Bool.or_eq_false_iff] at hb
  simp [hb.1]

theorem lor_ne_zero_right {b : Nat} (a : Nat) (h : b ≠ 0) : a ||| b ≠ 0 := by
  rw [Nat.lor_comm]
  exact lor_ne_zero_left a h

theorem shiftLeft_one_ne_zero (m : Nat) : 1 <<< m ≠ 0 := by
  rw [Nat.shiftLeft_eq]
  positivity

theorem getD_set_self (l : List Nat) (i v : Nat) (h : i < l.length) :
    (l.set i v).getD i 0 = v := by
  simp [List.getD_eq_getElem?_getD, List.getElem?_set_self, h]

theorem getD_set_other (l : List Nat) {i j : Nat} (v : Nat) (h : i ≠ j) :
    (l.set i v).getD j 0 = l.getD j 0 := by
  simp [List.getD_eq_getElem?_getD, List.getElem?_set_ne h]

theorem getD_append_left (l1 l2 : List Nat) {i : Nat} (h : i < l1.length) :
    (l1 ++ l2).getD i 0 = l1.getD i 0 := by
  simp [List.getD_eq_getElem?_getD, List.getElem?_append, h]

theorem setBit_length (arr : List Nat) (p : Nat) :
    (setBit arr p).length = arr.length := by
  simp [setBit]

theorem getBit_setBit_self (arr : List Nat) (p : Nat) (h : p / 8 < arr.length) :
    getBit (setBit arr p) p := by
  unfold getBit setBit
  rw [getD_set_self _ _ _ h, and_lor_distrib_right]
  apply lor_ne_zero_right
  have hk : ∀ m < 8, (1 <<< m) &&& (1 <<< m) = 1 <<< m := by decide
  rw [hk (p % 8) (Nat.mod_lt _ (by norm_num))]
  exact shiftLeft_one_ne_zero _

theorem getBit_setBit_mono (arr : List Nat) (p q : Nat) (h : getBit arr q) :
    getBit (setBit arr p) q := by
  unfold getBit at h ⊢
  unfold setBit
  by_cases hidx : p / 8 = q / 8
  · by_cases hlen : p / 8 < arr.length
    · rw [hidx] at hlen ⊢
      rw [getD_set_self _ _ _ hlen, and_lor_distrib_right]
      exact lor_ne_zero_left _ h
    · rw [List.set_eq_of_length_le (by omega)]
      exact h
  · rw [getD_set_other _ _ hidx]
    exact h

theorem bloomSetBits_length (k : Nat) :
    ∀ arr h delta bits, (bloomSetBits arr h delta k bits).length = arr.length := by
  induction k with
  | zero => intro arr h delta bits; rfl
  | succ k ih =>
    intro arr h delta bits
    show (bloomSetBits (setBit arr (h % bits)) _ delta k bits).length = _
    rw [ih, setBit_length]

theorem getBit_bloomSetBits_mono (k : Nat) :
    ∀ arr h delta bits q, getBit arr q → getBit (bloomSetBits arr h delta k bits) q := by
  induction k with
  | zero => intro arr h delta bits q hq; exact hq
  | succ k ih =>
    intro arr h delta bits q hq
    exact ih _ _ _ _ _ (getBit_setBit_mono _ _ _ hq)

theorem hseq_shift (h delta : Nat) (j : Nat) :
    hseq h delta (j + 1) = hseq ((h + delta) % 2 ^ 32) delta j := by
  induction j with
  | zero => rfl
  | succ j ih =>
    show (hseq h delta (j + 1) + delta) % 2 ^ 32 = _
    rw [ih]
    rfl

theorem getBit_bloomSetBits_sets (k : Nat) :
    ∀ arr h delta bits, bits = 8 * arr.length → 0 < arr.length →
      ∀ j < k, getBit (bloomSetBits arr h delta k bits) (hseq h delta j % bits) := by
  induction k with
  | zero => intro arr h delta bits hb hpos j hj; omega
  | succ k ih =>
    intro arr h delta bits hb hpos j hj
    show getBit (bloomSetBits (setBit arr (h % bits)) _ delta k bits) _
    match j with
    | 0 =>
      apply getBit_bloomSetBits_mono
      apply getBit_setBit_self
      have : h % bits < bits := Nat.mod_lt _ (by omega)
      omega
    | j + 1 =>
      rw [hseq_shift]
      apply ih (setBit arr (h % bits)) _ delta bits
        (by rw [setBit_length]; exact hb)
        (by rw [setBit_length]; exact hpos)
      omega

theorem bloomCheckBits_of_getBit (k : Nat) :
    ∀ arr h delta bits, (∀ j < k, getBit arr (hseq h delta j % bits)) →
      bloomCheckBits arr h delta k bits = true := by
  induction k with
  | zero => intro arr h delta bits hall; rfl
  | succ k ih =>
    intro arr h delta bits hall
    have h0 : getBit arr (h % bits) := hall 0 (by omega)
    unfold getBit at h0
    show (if _ = 0 then false else _) = true
    rw [if_neg h0]
    apply ih
    intro j hj
    have := hall (j + 1) (by omega)
    rwa [hseq_shift] at this

theorem bloomAddKey_length (k bits : Nat) (arr key : List Nat) :
    (bloomAddKey k bits arr key).length = arr.length :=
  bloomSetBits_length k arr _ _ bits

theorem foldl_bloomAddKey_length (k bits : Nat) (keys : List (List Nat)) :
    ∀ arr, (keys.foldl (bloomAddKey k bits) arr).length = arr.length := by
  induction keys with
  | nil => intro arr; rfl
  | cons key rest ih =>
    intro arr
    show (rest.foldl (bloomAddKey k bits) (bloomAddKey k bits arr key)).length = _
    rw [ih, bloomAddKey_length]

theorem getBit_foldl_mono (k bits : Nat) (keys : List (List Nat)) :
    ∀ arr q, getBit arr q → getBit (keys.foldl (bloomAddKey k bits) arr) q := by
  induction keys with
  | nil => intro arr q hq; exact hq
  | cons key rest ih =>
    intro arr q hq
    exact ih _ _ (getBit_bloomSetBits_mono k arr _ _ bits q hq)

theorem getBit_foldl_sets (k bits : Nat) (keys : List (List Nat)) :
    ∀ arr key, key ∈ keys → bits = 8 * arr.length → 0 < arr.length →
      ∀ j < k,
        getBit (keys.foldl (bloomAddKey k bits) arr)
          (hseq (BloomHash key) (bloomDelta (BloomHash key)) j % bits) := by
  induction keys with
  | nil => intro arr key hmem; cases hmem
  | cons key0 rest ih =>
    intro arr key hmem hb hpos j hj
    rcases List.mem_cons.mp hmem with heq | hmem0
    · subst heq
      show getBit (rest.foldl (bloomAddKey k bits) (bloomAddKey k bits arr key)) _
      apply getBit_foldl_mono
      exact getBit_bloomSetBits_sets k arr _ _ bits hb hpos j hj
    · show getBit (rest.foldl (bloomAddKey k bits) (bloomAddKey k bits arr key0)) _
      apply ih _ _ hmem0
        (by rw [bloomAddKey_length]; exact hb)
        (by rw [bloomAddKey_length]; exact hpos)
      exact hj

theorem bloomK_pos (b : Nat) : 1 ≤ bloomK b := by
  simp only [bloomK]
  split_ifs <;> omega

theorem bloomK_le_30 (b : Nat) : bloomK b ≤ 30 := by
  simp only [bloomK]
  split_ifs <;> omega

theorem getD_append_last (l1 : List Nat) (x : Nat) :
    (l1 ++ [x]).getD l1.length 0 = x := by
  simp [List.getD_eq_getElem?_getD, List.getElem?_append_right (le_refl l1.length)]

/-- C3: the built-in bloom filter has no false negatives: for every key
in the key list, `KeyMayMatch` returns `true` on the filter produced by
`CreateFilter` over that list. -/
theorem bloom_no_false_negatives (bits_per_key : Nat) (keys : List (List Nat))
    (key : List Nat) (hmem : key ∈ keys) :
    KeyMayMatch key (CreateFilter bits_per_key keys) = true := by
  have hKMM : ∀ f : List Nat, ¬ f.length < 2 →
      ¬ charToSizeT (f.getD (f.length - 1) 0) > 30 →
      KeyMayMatch key f =
        bloomCheckBits f (BloomHash key) (bloomDelta (BloomHash key))
          (charToSizeT (f.getD (f.length - 1) 0)) ((f.length - 1) * 8) := by
    intro f h1 h2
    simp only [KeyMayMatch]
    rw [if_neg h1, if_neg h2]
  have hk30 : bloomK bits_per_key ≤ 30 := bloomK_le_30 bits_per_key
  set k := bloomK bits_per_key with hk
  set bits1 := (if keys.length * bits_per_key < 64 then 64
    else keys.length * bits_per_key) with hbits1
  set bytes := (bits1 + 7) / 8 with hbytesdef
  set array := keys.foldl (bloomAddKey k (bytes * 8))
    (List.replicate bytes 0) with harray
  have hCF : CreateFilter bits_per_key keys = array ++ [k] := rfl
  have h64 : 64 ≤ bits1 := by
    rw [hbits1]
    split_ifs <;> omega
  have hby8 : 8 ≤ bytes := by omega
  have harrlen : array.length = bytes := by
    rw [harray, foldl_bloomAddKey_length, List.length_replicate]
  have hfltlen : (array ++ [k]).length = bytes + 1 := by
    rw [List.length_append, harrlen]
    rfl
  have cond1 : ¬ (array ++ [k]).length < 2 := by
    rw [hfltlen]
    omega
  have kread : (array ++ [k]).getD ((array ++ [k]).length - 1) 0 = k := by
    rw [hfltlen, show bytes + 1 - 1 = array.length by omega]
    exact getD_append_last array k
  have hchar : charToSizeT k = k := by
    unfold charToSizeT
    rw [if_pos (by omega)]
  have cond2 : ¬ charToSizeT ((array ++ [k]).getD ((array ++ [k]).length - 1) 0) > 30 := by
    rw [kread, hchar]
    omega
  rw [hCF, hKMM _ cond1 cond2, kread, hchar, hfltlen,
    show bytes + 1 - 1 = bytes by omega]
  apply bloomCheckBits_of_getBit
  intro j hj
  have hmod : hseq (BloomHash key) (bloomDelta (BloomHash key)) j % (bytes * 8)
      < bytes * 8 := Nat.mod_lt _ (by omega)
  have hidx : hseq (BloomHash key) (bloomDelta (BloomHash key)) j % (bytes * 8) / 8
      < array.length := by
    rw [harrlen]
    omega
  have hbitarr : getBit array
      (hseq (BloomHash key) (bloomDelta (BloomHash key)) j % (bytes * 8)) := by
    rw [harray]
    apply getBit_foldl_sets k (bytes * 8) keys _ key hmem ?_ ?_ j hj
    · rw [List.length_replicate]
      omega
    · rw [List.length_replicate]
      omega
  unfold getBit at hbitarr ⊢
  rw [getD_append_left _ _ hidx]
  exact hbitarr

/-- Witness for C3: the two-byte key `[1, 2]` inside a three-key list. -/
theorem bloom_no_false_negatives_witness :
    KeyMayMatch [1, 2] (CreateFilter 10 [[0], [1, 2], [3]]) = true :=
  bloom_no_false_negatives 10 [[0], [1, 2], [3]] [1, 2] (by simp)

/-- C5 counterexample: at `bits_per_key = 10` (the default), the
constructor computes `k = 6` (truncation of `10 * 0.69`), while
`round(10 · ln 2) = round(6.93...) = 7`. -/
theorem bloomK_ne_round_log_two :
    bloomK 10 = 6 ∧ round ((10 : ℝ) * Real.log 2) = 7 := by
  constructor
  · rfl
  · have h1 := Real.log_two_gt_d9
    have h2 := Real.log_two_lt_d9
    rw [round_eq]
    apply Int.floor_eq_iff.mpr
    constructor
    · push_cast
      nlinarith
    · push_cast
      nlinarith

/-- C5 (amended): the built-in bloom policy uses
`k = ⌊bits_per_key · 0.69⌋` (truncated, not rounded) hash probes, clamped
to [1, 30], and `CreateFilter` stores this `k` as the final byte of each
generated filter. -/
theorem bloomK_truncated_clamped_stored (bits_per_key : Nat)
    (keys : List (List Nat)) :
    bloomK bits_per_key = min 30 (max 1 (bits_per_key * 69 / 100)) ∧
    1 ≤ bloomK bits_per_key ∧ bloomK bits_per_key ≤ 30 ∧
    (CreateFilter bits_per_key keys).getLast? = some (bloomK bits_per_key) := by
  refine ⟨?_, bloomK_pos _, bloomK_le_30 _, ?_⟩
  · simp only [bloomK]
    split_ifs <;> omega
  · show (_ ++ [bloomK bits_per_key]).getLast? = _
    simp

/-- C10: `KeyMayMatch` returns `false` whenever the filter byte string is
shorter than 2 bytes, and returns `true` for every key when the filter's
final byte (read through the signed-`char` to `size_t` conversion)
exceeds 30. -/
theorem keyMayMatch_short_filter_and_large_k :
    (∀ key f : List Nat, f.length < 2 → KeyMayMatch key f = false) ∧
    (∀ key f : List Nat, 2 ≤ f.length → (∀ b ∈ f, b < 256) →
      30 < f.getD (f.length - 1) 0 → KeyMayMatch key f = true) := by
  constructor
  · intro key f hlen
    simp only [KeyMayMatch]
    rw [if_pos hlen]
  · intro key f hlen hbytes hk
    have hmemlast : f.getD (f.length - 1) 0 ∈ f := by
      have hlt : f.length - 1 < f.length := by omega
      rw [List.getD_eq_getElem?_getD, List.getElem?_eq_getElem hlt]
      exact List.getElem_mem hlt
    have hfin : charToSizeT (f.getD (f.length - 1) 0) > 30 := by
      unfold charToSizeT
      split_ifs with h
      · omega
      · have := hbytes _ hmemlast
        omega
    simp only [KeyMayMatch]
    rw [if_neg (by omega), if_pos hfin]

/-- Witness for C10: a one-byte filter rejects; a filter whose final byte
is 200 always matches. -/
theorem keyMayMatch_short_filter_and_large_k_witness :
    KeyMayMatch [5] [1] = false ∧ KeyMayMatch [5] [0, 200] = true :=
  ⟨keyMayMatch_short_filter_and_large_k.1 [5] [1] (by norm_num),
   keyMayMatch_short_filter_and_large_k.2 [5] [0, 200] (by norm_num)
     (by decide) (by decide)⟩

/-! ## db/write_batch.cc and db/db_impl.cc : the write path -/

/-- `ValueType` from db/dbformat.h. -/
inductive ValueType
  | typeDeletion
  | typeValue
deriving DecidableEq

/-- One record of a serialized `WriteBatch` (`kTypeValue varstring
varstring` or `kTypeDeletion varstring`). -/
inductive BatchOp
  | put (key value : List Nat)
  | del (key : List Nat)
deriving DecidableEq

/-- Shallow model of `WriteBatch`: the fixed64 sequence header plus the
decoded record list of `rep_`; the fixed32 count field is the list
length. -/
structure WriteBatch where
  seq : Nat
  ops : List BatchOp
deriving DecidableEq

namespace WriteBatchInternal

/-- `WriteBatchInternal::Count`. -/
def Count (b : WriteBatch) : Nat := b.ops.length

/-- `WriteBatchInternal::SetSequence`. -/
def SetSequence (b : WriteBatch) (s : Nat) : WriteBatch := { b with seq := s }

/-- `WriteBatchInternal::Append`: concatenates `src.rep_` minus its
header onto `dst` and adds the counts. -/
def Append (dst src : WriteBatch) : WriteBatch :=
  { dst with ops := dst.ops ++ src.ops }

/-- Serialized size in bytes of a length-prefixed string
(`PutLengthPrefixedSlice`). -/
def varstringSize (s : List Nat) : Nat :=
  (EncodeVarint32 s.length).length + s.length

/-- Serialized size in bytes of one record of `rep_`. -/
def opSize : BatchOp → Nat
  | .put k v => 1 + varstringSize k + varstringSize v
  | .del k => 1 + varstringSize k

/-- `WriteBatchInternal::ByteSize`: `rep_.size()` = 12-byte header plus
the record bytes. -/
def ByteSize (b : WriteBatch) : Nat :=
  12 + (b.ops.map opSize).sum

end WriteBatchInternal

/-- One `MemTable::Add` entry: `(sequence, type, user key, value)`. -/
structure MemEntry where
  seq : Nat
  type : ValueType
  key : List Nat
  value : List Nat
deriving DecidableEq

/-- The memtable as the ordered sequence of `Add` calls. -/
abbrev MemTable := List MemEntry

/-- `MemTable::Add`. -/
def MemTable.Add (m : MemTable) (s : Nat) (t : ValueType) (k v : List Nat) :
    MemTable :=
  m ++ [⟨s, t, k, v⟩]

/-- `WriteBatch::Iterate` driving the `MemTableInserter` handler of
db/write_batch.cc: `Put` and `Delete` records call `mem_->Add(sequence_,
...)` and then increment `sequence_`; a `Delete` record stores an empty
`Slice()` value. -/
def insertIntoLoop (ops : List BatchOp) (s : Nat) (mem : MemTable) :
    Nat × MemTable :=
  match ops with
  | [] => (s, mem)
  | .put k v :: rest => insertIntoLoop rest (s + 1) (mem.Add s .typeValue k v)
  | .del k :: rest => insertIntoLoop rest (s + 1) (mem.Add s .typeDeletion k [])

/-- `WriteBatchInternal::InsertInto`: iterate the batch starting at the
batch's stored sequence number. -/
def WriteBatchInternal.InsertInto (b : WriteBatch) (mem : MemTable) : MemTable :=
  (insertIntoLoop b.ops b.seq mem).2

/-- The DB state consulted by the committing path of `DBImpl::Write`. -/
structure DBState where
  lastSequence : Nat
  mem : MemTable
deriving DecidableEq

/-- The committing core of `DBImpl::Write` (db/db_impl.cc:1426-1472) on
the success path, after `BuildBatchGroup` produced the combined batch:
`SetSequence(write_batch, last_sequence + 1)`, `last_sequence +=
Count(write_batch)`, `InsertInto(write_batch, mem_)`,
`versions_->SetLastSequence(last_sequence)`.  Returns the new state and
the batch as scheduled. -/
def DBImpl.Write (s : DBState) (write_batch : WriteBatch) :
    DBState × WriteBatch :=
  let wb := WriteBatchInternal.SetSequence write_batch (s.lastSequence + 1)
  let last_sequence := s.lastSequence + WriteBatchInternal.Count wb
  let mem2 := WriteBatchInternal.InsertInto wb s.mem
  ({ lastSequence := last_sequence, mem := mem2 }, wb)

/-- The memtable entry produced for a record committed at sequence `s`. -/
def opEntry (s : Nat) : BatchOp → MemEntry
  | .put k v => ⟨s, .typeValue, k, v⟩
  | .del k => ⟨s, .typeDeletion, k, []⟩

theorem insertIntoLoop_spec (ops : List BatchOp) :
    ∀ s mem, insertIntoLoop ops s mem =
      (s + ops.length, mem ++ ops.mapIdx (fun i op => opEntry (s + i) op)) := by
  induction ops with
  | nil => intro s mem; simp [insertIntoLoop]
  | cons op rest ih =>
    intro s mem
    have hshift : (fun i op2 => opEntry (s + 1 + i) op2) =
        (fun i op2 => opEntry (s + (i + 1)) op2) := by
      funext i op2
      congr 1
      omega
    match op with
    | .put k v =>
      show insertIntoLoop rest (s + 1) (mem.Add s .typeValue k v) = _
      rw [ih, List.mapIdx_cons]
      refine Prod.ext ?_ ?_
      · show s + 1 + rest.length = s + (rest.length + 1)
        omega
      · show (mem.Add s .typeValue k v) ++ _ = mem ++ (_ :: _)
        rw [MemTable.Add, List.append_assoc, hshift]
        rfl
    | .del k =>
      show insertIntoLoop rest (s + 1) (mem.Add s .typeDeletion k []) = _
      rw [ih, List.mapIdx_cons]
      refine Prod.ext ?_ ?_
      · show s + 1 + rest.length = s + (rest.length + 1)
        omega
      · show (mem.Add s .typeDeletion k []) ++ _ = mem ++ (_ :: _)
        rw [MemTable.Add, List.append_assoc, hshift]
        rfl

/-- C1: for every `Write` call that commits a combined batch, the batch's
starting sequence number is set to `last_sequence + 1`, `last_sequence`
is advanced by exactly the batch's record count, and `InsertInto` applies
the batch's records to the memtable in batch order, assigning each
successive record the next contiguous sequence number starting at the
batch sequence. -/
theorem write_commits_contiguous (s : DBState) (updates : WriteBatch) :
    (DBImpl.Write s updates).2.seq = s.lastSequence + 1 ∧
    (DBImpl.Write s updates).1.lastSequence =
      s.lastSequence + WriteBatchInternal.Count updates ∧
    (DBImpl.Write s updates).1.mem =
      s.mem ++ updates.ops.mapIdx (fun i op => opEntry (s.lastSequence + 1 + i) op) := by
  refine ⟨rfl, rfl, ?_⟩
  show (WriteBatchInternal.InsertInto
    (WriteBatchInternal.SetSequence updates (s.lastSequence + 1)) s.mem) = _
  unfold WriteBatchInternal.InsertInto WriteBatchInternal.SetSequence
  rw [insertIntoLoop_spec]

/-- A queued writer (`DBImpl::Writer` of db/db_impl.cc): its batch (null
for compaction-forcing writers) and sync flag. -/
structure Writer where
  batch : Option WriteBatch
  sync : Bool

/-- The `for (; iter != writers_.end(); ++iter)` loop of
`DBImpl::BuildBatchGroup`.  Returns the combined batch, the accumulated
`size`, and how many writers after the head were consumed (the source
tracks the last consumed writer through `*last_writer`; the `tmp_batch_`
switch is a memory optimization and the result is modelled directly as
the appended batch). -/
def buildGroupLoop (first : Writer) (maxSize : Nat) :
    List Writer → Nat → WriteBatch → WriteBatch × Nat × Nat
  | [], size, result => (result, size, 0)
  | w :: rest, size, result =>
    if w.sync && !first.sync then
      (result, size, 0)
    else
      match w.batch with
      | some wb =>
        let size2 := size + WriteBatchInternal.ByteSize wb
        if size2 > maxSize then
          (result, size, 0)
        else
          let r := buildGroupLoop first maxSize rest size2
            (WriteBatchInternal.Append result wb)
          (r.1, r.2.1, r.2.2 + 1)
      | none =>
        let r := buildGroupLoop first maxSize rest size result
        (r.1, r.2.1, r.2.2 + 1)

/-- `DBImpl::BuildBatchGroup` (db/db_impl.cc:1499-1545): `first` is the
head of `writers_`, `rest` the writers behind it.  `REQUIRES: first
writer must have a non-null batch` (asserted in the source); the `none`
case is unreachable. -/
def DBImpl.BuildBatchGroup (first : Writer) (rest : List Writer) :
    WriteBatch × Nat × Nat :=
  match first.batch with
  | some fb =>
    let size := WriteBatchInternal.ByteSize fb
    let maxSize := if size ≤ 128 <<< 10 then size + (128 <<< 10) else 1 <<< 20
    buildGroupLoop first maxSize rest size fb
  | none => (⟨0, []⟩, 0, 0)

theorem buildGroupLoop_spec (first : Writer) (maxSize : Nat) :
    ∀ (ws : List Writer) (size : Nat) (result : WriteBatch),
      (buildGroupLoop first maxSize ws size result).2.2 ≤ ws.length ∧
      (buildGroupLoop first maxSize ws size result).1.ops =
        result.ops ++
          ((((ws.take (buildGroupLoop first maxSize ws size result).2.2).filterMap
            Writer.batch).map WriteBatch.ops).flatten) ∧
      (buildGroupLoop first maxSize ws size result).2.1 =
        size + (((ws.take (buildGroupLoop first maxSize ws size result).2.2).filterMap
          Writer.batch).map WriteBatchInternal.ByteSize).sum ∧
      ((buildGroupLoop first maxSize ws size result).2.1 ≤ maxSize ∨
        (buildGroupLoop first maxSize ws size result).2.1 = size) ∧
      (first.sync = false →
        ∀ w ∈ ws.take (buildGroupLoop first maxSize ws size result).2.2,
          w.sync = false) := by
  intro ws
  induction ws with
  | nil =>
    intro size result
    refine ⟨by simp [buildGroupLoop], by simp [buildGroupLoop], by simp [buildGroupLoop],
      Or.inr (by simp [buildGroupLoop]), ?_⟩
    intro _ w hw
    simp [buildGroupLoop] at hw
  | cons w rest ih =>
    intro size result
    by_cases hsync : w.sync && !first.sync
    · rw [show buildGroupLoop first maxSize (w :: rest) size result =
        (result, size, 0) from by rw [buildGroupLoop, if_pos hsync]]
      refine ⟨by simp, by simp, by simp, Or.inr rfl, ?_⟩
      intro _ w2 hw2
      simp at hw2
    · match hb : w.batch with
      | some wb =>
        by_cases hcap : size + WriteBatchInternal.ByteSize wb > maxSize
        · rw [show buildGroupLoop first maxSize (w :: rest) size result =
            (result, size, 0) from by
              rw [buildGroupLoop, if_neg hsync, hb]
              simp only
              rw [if_pos hcap]]
          refine ⟨by simp, by simp, by simp, Or.inr rfl, ?_⟩
          intro _ w2 hw2
          simp at hw2
        · have hstep : buildGroupLoop first maxSize (w :: rest) size result =
            ((buildGroupLoop first maxSize rest (size + WriteBatchInternal.ByteSize wb)
                (WriteBatchInternal.Append result wb)).1,
             (buildGroupLoop first maxSize rest (size + WriteBatchInternal.ByteSize wb)
                (WriteBatchInternal.Append result wb)).2.1,
             (buildGroupLoop first maxSize rest (size + WriteBatchInternal.ByteSize wb)
                (WriteBatchInternal.Append result wb)).2.2 + 1) := by
            rw [buildGroupLoop, if_neg hsync, hb]
            simp only
            rw [if_neg hcap]
          obtain ⟨ih1, ih2, ih3, ih4, ih5⟩ :=
            ih (size + WriteBatchInternal.ByteSize wb) (WriteBatchInternal.Append result wb)
          rw [hstep]
          refine ⟨?_, ?_, ?_, ?_, ?_⟩
          · simp only [List.length_cons]
            omega
          · simp only [List.take_succ_cons, List.filterMap_cons, hb, List.map_cons,
              List.flatten_cons]
            rw [ih2]
            show (WriteBatchInternal.Append result wb).ops ++ _ = _
            rw [WriteBatchInternal.Append]
            simp [List.append_assoc]
          · simp only [List.take_succ_cons, List.filterMap_cons, hb, List.map_cons,
              List.sum_cons]
            omega
          · left
            rcases ih4 with h | h
            · exact h
            · have hle : (buildGroupLoop first maxSize rest
                  (size + WriteBatchInternal.ByteSize wb)
                  (WriteBatchInternal.Append result wb)).2.1 ≤ maxSize := by
                omega
              exact hle
          · intro hfs w2 hw2
            simp only [List.take_succ_cons, List.mem_cons] at hw2
            rcases hw2 with rfl | hw2
            · simp [hfs] at hsync
              simpa using hsync
            · exact ih5 hfs w2 hw2
      | none =>
        have hstep : buildGroupLoop first maxSize (w :: rest) size result =
            ((buildGroupLoop first maxSize rest size result).1,
             (buildGroupLoop first maxSize rest size result).2.1,
             (buildGroupLoop first maxSize rest size result).2.2 + 1) := by
          rw [buildGroupLoop, if_neg hsync, hb]
        obtain ⟨ih1, ih2, ih3, ih4, ih5⟩ := ih size result
        rw [hstep]
        refine ⟨?_, ?_, ?_, ih4, ?_⟩
        · simp only [List.length_cons]
          omega
        · simp only [List.take_succ_cons, List.filterMap_cons, hb]
          exact ih2
        · simp only [List.take_succ_cons, List.filterMap_cons, hb]
          exact ih3
        · intro hfs w2 hw2
          simp only [List.take_succ_cons, List.mem_cons] at hw2
          rcases hw2 with rfl | hw2
          · simp [hfs] at hsync
            simpa using hsync
          · exact ih5 hfs w2 hw2

/-- C6: `BuildBatchGroup` appends following writers' batches into one
combined batch only while the accumulated byte size stays within the cap
(1 MiB, or head size + 128 KiB when the head batch is at most 128 KiB);
the accumulated size can exceed the cap only when no batch at all was
appended (it then equals the head batch's own size); and when the leader
is non-sync, no consumed writer has `sync = true`. -/
theorem buildBatchGroup_cap_and_sync (first : Writer) (rest : List Writer)
    (fb : WriteBatch) (hfb : first.batch = some fb) :
    ((DBImpl.BuildBatchGroup first rest).2.1 ≤
        (if WriteBatchInternal.ByteSize fb ≤ 128 <<< 10
          then WriteBatchInternal.ByteSize fb + (128 <<< 10) else 1 <<< 20) ∨
      (DBImpl.BuildBatchGroup first rest).2.1 = WriteBatchInternal.ByteSize fb) ∧
    (DBImpl.BuildBatchGroup first rest).1.ops =
      fb.ops ++ ((((rest.take (DBImpl.BuildBatchGroup first rest).2.2).filterMap
        Writer.batch).map WriteBatch.ops).flatten) ∧
    (DBImpl.BuildBatchGroup first rest).2.1 =
      WriteBatchInternal.ByteSize fb +
        (((rest.take (DBImpl.BuildBatchGroup first rest).2.2).filterMap
          Writer.batch).map WriteBatchInternal.ByteSize).sum ∧
    (first.sync = false →
      ∀ w ∈ rest.take (DBImpl.BuildBatchGroup first rest).2.2, w.sync = false) := by
  have hunfold : DBImpl.BuildBatchGroup first rest =
      buildGroupLoop first
        (if WriteBatchInternal.ByteSize fb ≤ 128 <<< 10
          then WriteBatchInternal.ByteSize fb + (128 <<< 10) else 1 <<< 20)
        rest (WriteBatchInternal.ByteSize fb) fb := by
    unfold DBImpl.BuildBatchGroup
    rw [hfb]
  obtain ⟨h1, h2, h3, h4, h5⟩ := buildGroupLoop_spec first
    (if WriteBatchInternal.ByteSize fb ≤ 128 <<< 10
      then WriteBatchInternal.ByteSize fb + (128 <<< 10) else 1 <<< 20)
    rest (WriteBatchInternal.ByteSize fb) fb
  rw [hunfold]
  exact ⟨h4, h2, h3, h5⟩

/-- Witness for C6: a two-writer queue where the second non-sync writer
is merged behind the head. -/
theorem buildBatchGroup_cap_and_sync_witness :
    (DBImpl.BuildBatchGroup ⟨some ⟨0, [BatchOp.put [1] [2]]⟩, false⟩
        [⟨some ⟨0, [BatchOp.del [3]]⟩, false⟩]).1.ops =
      [BatchOp.put [1] [2]] ++
        (((([⟨some ⟨0, [BatchOp.del [3]]⟩, false⟩] : List Writer).take
          (DBImpl.BuildBatchGroup ⟨some ⟨0, [BatchOp.put [1] [2]]⟩, false⟩
            [⟨some ⟨0, [BatchOp.del [3]]⟩, false⟩]).2.2).filterMap
          Writer.batch).map WriteBatch.ops).flatten :=
  (buildBatchGroup_cap_and_sync ⟨some ⟨0, [BatchOp.put [1] [2]]⟩, false⟩
    [⟨some ⟨0, [BatchOp.del [3]]⟩, false⟩] ⟨0, [BatchOp.put [1] [2]]⟩ rfl).2.1

/-! ## db/log_writer.cc : record fragmentation -/

/-- `kBlockSize` from db/log_format.h. -/
def kBlockSize : Nat := 32768

/-- `kHeaderSize` from db/log_format.h: checksum (4) + length (2) +
type (1). -/
def kHeaderSize : Nat := 7

/-- The data-carrying `RecordType`s from db/log_format.h. -/
inductive RecordType
  | fullType
  | firstType
  | middleType
  | lastType
deriving DecidableEq

/-- Observable output of the log writer: the zero-fill trailer written
when a block tail is smaller than a header, and each physical record
(type, block offset of its header, payload fragment). -/
inductive LogEvent
  | pad (bytes : List Nat)
  | record (t : RecordType) (headerStart : Nat) (data : List Nat)
deriving DecidableEq

/-- `block_offset_` after the leftover check of `AddRecord`: blocks whose
tail is smaller than a header are left and the next block starts at 0. -/
def logOff1 (offset : Nat) : Nat :=
  if kBlockSize - offset < kHeaderSize then 0 else offset

/-- The `Append(Slice("\x00...", leftover))` trailer fill of `AddRecord`,
emitted only when `0 < leftover < kHeaderSize`. -/
def logPadEv (offset : Nat) : List LogEvent :=
  if kBlockSize - offset < kHeaderSize ∧ 0 < kBlockSize - offset then
    [LogEvent.pad (List.replicate (kBlockSize - offset) 0)]
  else []

/-- `avail = kBlockSize - block_offset_ - kHeaderSize` after the
leftover check. -/
def logAvail (offset : Nat) : Nat :=
  kBlockSize - logOff1 offset - kHeaderSize

/-- The do-while loop of `log::Writer::AddRecord` (db/log_writer.cc),
with `EmitPhysicalRecord`'s `block_offset_ += kHeaderSize + length`
folded in.  Returns the final `block_offset_` and the emitted events. -/
def addRecordLoop (offset : Nat) (data : List Nat) (beg : Bool) :
    Nat × List LogEvent :=
  let off1 := logOff1 offset
  let avail := logAvail offset
  let fragLen := if data.length < avail then data.length else avail
  let isEnd := data.length = fragLen
  let t : RecordType :=
    if beg ∧ isEnd then .fullType
    else if beg then .firstType
    else if isEnd then .lastType
    else .middleType
  let off2 := off1 + kHeaderSize + fragLen
  if hrec : 0 < data.length - fragLen then
    let r := addRecordLoop off2 (data.drop fragLen) false
    (r.1, logPadEv offset ++ LogEvent.record t off1 (data.take fragLen) :: r.2)
  else
    (off2, logPadEv offset ++ [LogEvent.record t off1 (data.take fragLen)])
termination_by 2 * data.length + (if offset = kBlockSize - kHeaderSize then 1 else 0)
decreasing_by
  simp only [List.length_drop, kBlockSize, kHeaderSize, logOff1, logAvail] at hrec ⊢
  split_ifs at hrec ⊢ <;> omega

/-- `log::Writer::AddRecord`: fragment the payload starting from the
writer's current `block_offset_`. -/
def AddRecord (block_offset : Nat) (slice : List Nat) : Nat × List LogEvent :=
  addRecordLoop block_offset slice true

/-- The physical records among the emitted events, in order. -/
def recEvents (evs : List LogEvent) : List (RecordType × Nat × List Nat) :=
  evs.filterMap fun e =>
    match e with
    | .pad _ => none
    | .record t o d => some (t, o, d)

/-- The record-type shape of a logical record split into `n` fragments. -/
def chainTypes (beg : Bool) : Nat → List RecordType
  | 0 => []
  | 1 => [if beg then .fullType else .lastType]
  | n + 2 => (if beg then .firstType else .middleType) :: chainTypes false (n + 1)

/-- Every trailer fill consists of fewer than `kHeaderSize` zero bytes
and is immediately followed by a fragment whose header starts at offset 0
of the next block. -/
def padsOk : List LogEvent → Prop
  | [] => True
  | .pad bs :: rest =>
    (bs = List.replicate bs.length 0 ∧ 0 < bs.length ∧ bs.length < kHeaderSize) ∧
    (∃ t d tail, rest = LogEvent.record t 0 d :: tail) ∧ padsOk rest
  | .record _ _ _ :: rest => padsOk rest

theorem logOff1_le (offset : Nat) : logOff1 offset + kHeaderSize ≤ kBlockSize := by
  unfold logOff1 kBlockSize kHeaderSize
  split_ifs <;> omega

theorem addRecordLoop_stop (offset : Nat) (data : List Nat) (beg : Bool)
    (h : data.length ≤ logAvail offset) :
    addRecordLoop offset data beg =
      (logOff1 offset + kHeaderSize + data.length,
       logPadEv offset ++
         [LogEvent.record (if beg then .fullType else .lastType) (logOff1 offset) data]) := by
  rw [addRecordLoop]
  have hfrag : (if data.length < logAvail offset then data.length else logAvail offset) =
      data.length := by
    split_ifs <;> omega
  simp only [hfrag]
  rw [dif_neg (by omega)]
  by_cases hb : beg = true
  · simp [hb]
  · simp only [Bool.not_eq_true] at hb
    simp [hb]

theorem addRecordLoop_cont (offset : Nat) (data : List Nat) (beg : Bool)
    (h : logAvail offset < data.length) :
    addRecordLoop offset data beg =
      ((addRecordLoop (logOff1 offset + kHeaderSize + logAvail offset)
          (data.drop (logAvail offset)) false).1,
       logPadEv offset ++
         LogEvent.record (if beg then .firstType else .middleType) (logOff1 offset)
           (data.take (logAvail offset)) ::
         (addRecordLoop (logOff1 offset + kHeaderSize + logAvail offset)
           (data.drop (logAvail offset)) false).2) := by
  rw [addRecordLoop]
  have hfrag : (if data.length < logAvail offset then data.length else logAvail offset) =
      logAvail offset := by
    rw [if_neg]
    omega
  simp only [hfrag]
  rw [dif_pos (by omega)]
  have ht : (if beg ∧ data.length = logAvail offset then RecordType.fullType
      else if beg then .firstType else if data.length = logAvail offset then .lastType
      else .middleType) = (if beg then RecordType.firstType else .middleType) := by
    have hne : ¬ data.length = logAvail offset := by omega
    by_cases hb : beg = true
    · simp [hb, hne]
    · simp at hb
      simp [hb, hne]
  rw [ht]

theorem recEvents_padEv (offset : Nat) (l : List LogEvent) :
    recEvents (logPadEv offset ++ l) = recEvents l := by
  unfold logPadEv
  split_ifs <;> simp [recEvents]

theorem recEvents_cons_record (t : RecordType) (o : Nat) (d : List Nat)
    (l : List LogEvent) :
    recEvents (LogEvent.record t o d :: l) = (t, o, d) :: recEvents l := by
  simp [recEvents]

theorem padsOk_padEv (offset : Nat) (l : List LogEvent) (hl : padsOk l)
    (hfirst : kBlockSize - offset < kHeaderSize ∧ 0 < kBlockSize - offset →
      ∃ t d tail, l = LogEvent.record t 0 d :: tail) :
    padsOk (logPadEv offset ++ l) := by
  unfold logPadEv
  split_ifs with hc
  · show padsOk (LogEvent.pad (List.replicate (kBlockSize - offset) 0) :: l)
    refine ⟨⟨?_, ?_, ?_⟩, hfirst hc, hl⟩
    · simp
    · simp
      omega
    · simp
      exact hc.1
  · simpa using hl

theorem chainTypes_cons (beg : Bool) (n : Nat) (h : 1 ≤ n) :
    chainTypes beg (n + 1) =
      (if beg then RecordType.firstType else .middleType) :: chainTypes false n := by
  match n with
  | 0 => omega
  | m + 1 => rfl

theorem chainTypes_false_eq (m : Nat) (h : 1 ≤ m) :
    chainTypes false m =
      List.replicate (m - 1) RecordType.middleType ++ [RecordType.lastType] := by
  induction m with
  | zero => omega
  | succ m ih =>
    cases Nat.eq_zero_or_pos m with
    | inl h0 =>
      subst h0
      simp [chainTypes]
    | inr hpos =>
      rw [chainTypes_cons false m hpos, ih hpos,
        show m + 1 - 1 = (m - 1) + 1 by omega, List.replicate_succ]
      simp

theorem addRecordLoop_spec (offset : Nat) (data : List Nat) (beg : Bool) :
    (addRecordLoop offset data beg).1 ≤ kBlockSize ∧
    (recEvents (addRecordLoop offset data beg).2).map (fun p => p.1) =
      chainTypes beg (recEvents (addRecordLoop offset data beg).2).length ∧
    1 ≤ (recEvents (addRecordLoop offset data beg).2).length ∧
    ((recEvents (addRecordLoop offset data beg).2).length = 1 ↔
      data.length ≤ logAvail offset) ∧
    ((recEvents (addRecordLoop offset data beg).2).map (fun p => p.2.2)).flatten =
      data ∧
    padsOk (addRecordLoop offset data beg).2 := by
  induction offset, data, beg using addRecordLoop.induct with
  | case1 offset data beg off1 avail fragLen off2 hrec ih =>
    have hcont : logAvail offset < data.length := by
      by_cases hc : data.length < logAvail offset
      · have hfrag : fragLen = data.length := if_pos hc
        omega
      · have hfrag : fragLen = logAvail offset := if_neg hc
        omega
    have hfraga : fragLen = logAvail offset := if_neg (by omega)
    have hoff2 : off2 = logOff1 offset + kHeaderSize + logAvail offset := by
      show off1 + kHeaderSize + fragLen = _
      rw [hfraga]
    simp only [hfraga, hoff2] at ih
    obtain ⟨ih1, ih2, ih3, ih4, ih5, ih6⟩ := ih
    rw [addRecordLoop_cont offset data beg hcont]
    refine ⟨ih1, ?_, ?_, ?_, ?_, ?_⟩
    · show (recEvents (logPadEv offset ++ _ :: _)).map _ =
        chainTypes beg (recEvents (logPadEv offset ++ _ :: _)).length
      rw [recEvents_padEv, recEvents_cons_record]
      simp only [List.map_cons, List.length_cons]
      rw [ih2, chainTypes_cons beg _ ih3]
    · show 1 ≤ (recEvents (logPadEv offset ++ _ :: _)).length
      rw [recEvents_padEv, recEvents_cons_record]
      simp
    · show (recEvents (logPadEv offset ++ _ :: _)).length = 1 ↔ _
      rw [recEvents_padEv, recEvents_cons_record]
      simp only [List.length_cons]
      constructor
      · intro hlen
        omega
      · intro hlen
        omega
    · show ((recEvents (logPadEv offset ++ _ :: _)).map _).flatten = _
      rw [recEvents_padEv, recEvents_cons_record]
      simp only [List.map_cons, List.flatten_cons]
      rw [ih5, List.take_append_drop]
    · show padsOk (logPadEv offset ++ _ :: _)
      apply padsOk_padEv
      · exact ih6
      · intro hc
        have h0 : logOff1 offset = 0 := by
          unfold logOff1
          rw [if_pos hc.1]
        rw [h0]
        exact ⟨_, _, _, rfl⟩
  | case2 offset data beg avail fragLen hstop =>
    have hle : data.length ≤ logAvail offset := by
      by_cases hc : data.length < logAvail offset
      · omega
      · have hfrag : fragLen = logAvail offset := if_neg hc
        omega
    rw [addRecordLoop_stop offset data beg hle]
    have hoffle := logOff1_le offset
    refine ⟨?_, ?_, ?_, ?_, ?_, ?_⟩
    · show logOff1 offset + kHeaderSize + data.length ≤ kBlockSize
      unfold logAvail at hle
      omega
    · show (recEvents (logPadEv offset ++ [_])).map _ =
        chainTypes beg (recEvents (logPadEv offset ++ [_])).length
      rw [recEvents_padEv, recEvents_cons_record]
      show [_] = chainTypes beg (List.length [_])
      by_cases hb : beg = true
      · simp [hb, chainTypes]
      · simp only [Bool.not_eq_true] at hb
        simp [hb, chainTypes]
    · show 1 ≤ (recEvents (logPadEv offset ++ [_])).length
      rw [recEvents_padEv, recEvents_cons_record]
      simp [recEvents]
    · show (recEvents (logPadEv offset ++ [_])).length = 1 ↔ _
      rw [recEvents_padEv, recEvents_cons_record]
      constructor
      · intro _
        exact hle
      · intro _
        simp [recEvents]
    · show ((recEvents (logPadEv offset ++ [_])).map _).flatten = _
      rw [recEvents_padEv, recEvents_cons_record]
      simp [recEvents]
    · show padsOk (logPadEv offset ++ [_])
      apply padsOk_padEv
      · show padsOk ([] : List LogEvent)
        trivial
      · intro hc
        have h0 : logOff1 offset = 0 := by
          unfold logOff1
          rw [if_pos hc.1]
        rw [h0]
        exact ⟨_, _, _, rfl⟩

/-- C7 counterexample: at `block_offset_ = 32767` only 1 byte remains in
the current block, so a 1-byte payload plus the 7-byte header does not
fit there; yet `AddRecord` emits it as a single Full fragment (in the
next block, after zero-padding the tail), not as a First/…/Last chain. -/
theorem addRecord_full_despite_small_tail :
    (AddRecord 32767 [97]).2 =
      [LogEvent.pad [0], LogEvent.record RecordType.fullType 0 [97]] ∧
    ¬ (1 + kHeaderSize ≤ kBlockSize - 32767) := by
  constructor
  · rw [AddRecord, addRecordLoop_stop 32767 [97] true (by decide)]
    decide
  · decide

/-- C7 (amended): every record appended via `AddRecord` is emitted either
as a single Full fragment — exactly when the payload plus the 7-byte
header fits in the remaining space of the block where its first fragment
is placed (i.e. after zero-padding a tail shorter than 7 bytes) — or as
a First fragment, zero or more Middle fragments, and a final Last
fragment; the fragments carry the payload in order, and every tail fill
consists of fewer than 7 zero bytes with the following fragment starting
at offset 0 of the next block. -/
theorem addRecord_fragmentation (offset : Nat) (payload : List Nat) :
    ((recEvents (AddRecord offset payload).2).map (fun p => p.1) =
        [RecordType.fullType] ∨
      ∃ m, (recEvents (AddRecord offset payload).2).map (fun p => p.1) =
        RecordType.firstType ::
          (List.replicate m RecordType.middleType ++ [RecordType.lastType])) ∧
    ((recEvents (AddRecord offset payload).2).map (fun p => p.1) =
        [RecordType.fullType] ↔
      payload.length + kHeaderSize ≤ kBlockSize - logOff1 offset) ∧
    ((recEvents (AddRecord offset payload).2).map (fun p => p.2.2)).flatten =
      payload ∧
    padsOk (AddRecord offset payload).2 := by
  unfold AddRecord
  obtain ⟨h1, h2, h3, h4, h5, h6⟩ := addRecordLoop_spec offset payload true
  have hoffle := logOff1_le offset
  have hiff : (recEvents (addRecordLoop offset payload true).2).length = 1 ↔
      payload.length + kHeaderSize ≤ kBlockSize - logOff1 offset := by
    rw [h4]
    unfold logAvail
    omega
  have hmap1 : (recEvents (addRecordLoop offset payload true).2).map (fun p => p.1) =
      [RecordType.fullType] ↔
      (recEvents (addRecordLoop offset payload true).2).length = 1 := by
    constructor
    · intro hm
      have := congrArg List.length hm
      simpa using this
    · intro hl
      rw [h2, hl]
      rfl
  refine ⟨?_, ?_, h5, h6⟩
  · by_cases hone : (recEvents (addRecordLoop offset payload true).2).length = 1
    · left
      exact hmap1.mpr hone
    · right
      have h2le : 2 ≤ (recEvents (addRecordLoop offset payload true).2).length := by
        omega
      refine ⟨(recEvents (addRecordLoop offset payload true).2).length - 2, ?_⟩
      rw [h2,
        show (recEvents (addRecordLoop offset payload true).2).length =
          ((recEvents (addRecordLoop offset payload true).2).length - 1) + 1 by omega,
        chainTypes_cons true _ (by omega),
        chainTypes_false_eq _ (by omega)]
      have heq : (recEvents (addRecordLoop offset payload true).2).length - 1 - 1 =
          (recEvents (addRecordLoop offset payload true).2).length - 1 + 1 - 2 := by
        omega
      rw [heq]
      simp
  · rw [hmap1]
    exact hiff

/-! ## table/block_builder.cc : prefix-compressed blocks -/

/-- `BlockBuilder` state: the serialized `buffer_`, the restart offsets
`restarts_`, the per-restart entry counter `counter_`, and `last_key_`.
The `entries` field is verification instrumentation recording, for each
`Add`, the byte offset in `buffer_` at which the entry was written and
its `shared` length. -/
structure BlockBuilder where
  buffer : List Nat
  restarts : List Nat
  counter : Nat
  lastKey : List Nat
  entries : List (Nat × Nat)
deriving DecidableEq

/-- A fresh builder (constructor / `Reset`): one restart at offset 0. -/
def BlockBuilder.empty : BlockBuilder := ⟨[], [0], 0, [], []⟩

/-- The `while ((shared < min_length) && ...)` common-prefix scan of
`BlockBuilder::Add`. -/
def commonPrefixLen : List Nat → List Nat → Nat
  | a :: as, b :: bs => if a = b then commonPrefixLen as bs + 1 else 0
  | _, _ => 0

/-- `BlockBuilder::Add` (table/block_builder.cc): when `counter_ <
block_restart_interval` the key is prefix-compressed against
`last_key_`; otherwise the current buffer offset is recorded as a new
restart and the full key stored (`shared = 0`). -/
def BlockBuilder.Add (interval : Nat) (st : BlockBuilder)
    (key value : List Nat) : BlockBuilder :=
  let shared :=
    if st.counter < interval then commonPrefixLen st.lastKey key else 0
  let restarts2 :=
    if st.counter < interval then st.restarts else st.restarts ++ [st.buffer.length]
  let counter2 := if st.counter < interval then st.counter else 0
  let nonShared := key.length - shared
  let buffer2 := st.buffer ++ EncodeVarint32 shared ++ EncodeVarint32 nonShared ++
    EncodeVarint32 value.length ++ key.drop shared ++ value
  { buffer := buffer2,
    restarts := restarts2,
    counter := counter2 + 1,
    lastKey := st.lastKey.take shared ++ key.drop shared,
    entries := st.entries ++ [(st.buffer.length, shared)] }

/-- A block built by a sequence of `Add` calls on a fresh builder. -/
def BlockBuilder.build (interval : Nat) (kvs : List (List Nat × List Nat)) :
    BlockBuilder :=
  kvs.foldl (fun st kv => BlockBuilder.Add interval st kv.1 kv.2)
    BlockBuilder.empty

/-- `PutFixed32` from util/coding.cc (little-endian). -/
def PutFixed32 (dst : List Nat) (v : Nat) : List Nat :=
  dst ++ [v % 256, (v >>> 8) % 256, (v >>> 16) % 256, (v >>> 24) % 256]

/-- `BlockBuilder::Finish`: append each restart offset and the restart
count as fixed32 words. -/
def BlockBuilder.Finish (st : BlockBuilder) : List Nat :=
  PutFixed32 (st.restarts.foldl PutFixed32 st.buffer) st.restarts.length

theorem encodeVarint32_length_pos (v : Nat) : 0 < (EncodeVarint32 v).length := by
  unfold EncodeVarint32
  split_ifs <;> simp

theorem commonPrefixLen_nil (key : List Nat) : commonPrefixLen [] key = 0 := by
  cases key <;> rfl

/-- Invariant of `BlockBuilder` states reachable by `Add` calls. -/
def BlockInv (st : BlockBuilder) : Prop :=
  (∀ p ∈ st.entries, p.1 ∈ st.restarts → p.2 = 0) ∧
  (∀ r ∈ st.restarts, r < st.buffer.length ∨ (r = 0 ∧ st.buffer = [])) ∧
  (st.buffer = [] → st.lastKey = []) ∧
  (∀ p ∈ st.entries, p.1 < st.buffer.length)

theorem blockInv_empty : BlockInv BlockBuilder.empty := by
  refine ⟨?_, ?_, ?_, ?_⟩
  · intro p hp
    simp [BlockBuilder.empty] at hp
  · intro r hr
    simp [BlockBuilder.empty] at hr
    simp [BlockBuilder.empty, hr]
  · intro _
    rfl
  · intro p hp
    simp [BlockBuilder.empty] at hp

theorem blockInv_add (interval : Nat) (st : BlockBuilder) (key value : List Nat)
    (h : BlockInv st) : BlockInv (BlockBuilder.Add interval st key value) := by
  obtain ⟨h1, h2, h3, h4⟩ := h
  have hgrow : st.buffer.length <
      (BlockBuilder.Add interval st key value).buffer.length := by
    show st.buffer.length < (st.buffer ++ _ ++ _ ++ _ ++ _ ++ _).length
    simp only [List.length_append]
    have := encodeVarint32_length_pos
      (if st.counter < interval then commonPrefixLen st.lastKey key else 0)
    omega
  by_cases hc : st.counter < interval
  · refine ⟨?_, ?_, ?_, ?_⟩
    · intro p hp hr
      simp only [BlockBuilder.Add, if_pos hc, List.mem_append,
        List.mem_singleton] at hp hr
      rcases hp with hp | hp
      · exact h1 p hp hr
      · subst hp
        rcases h2 _ hr with hlt | ⟨hz, hnil⟩
        · omega
        · show commonPrefixLen st.lastKey key = 0
          rw [h3 hnil, commonPrefixLen_nil]
    · intro r hr
      simp only [BlockBuilder.Add, if_pos hc] at hr
      left
      rcases h2 r hr with hlt | ⟨hz, hnil⟩
      · omega
      · subst hz
        simp only [BlockBuilder.Add] at hgrow ⊢
        omega
    · intro hnil
      exfalso
      have : (BlockBuilder.Add interval st key value).buffer.length = 0 := by
        rw [hnil]
        rfl
      omega
    · intro p hp
      simp only [BlockBuilder.Add, List.mem_append, List.mem_singleton] at hp
      rcases hp with hp | hp
      · have := h4 p hp
        omega
      · subst hp
        exact hgrow
  · refine ⟨?_, ?_, ?_, ?_⟩
    · intro p hp hr
      simp only [BlockBuilder.Add, if_neg hc, List.mem_append,
        List.mem_singleton] at hp hr
      rcases hp with hp | hp
      · rcases hr with hr | hr
        · exact h1 p hp hr
        · have := h4 p hp
          omega
      · subst hp
        rfl
    · intro r hr
      simp only [BlockBuilder.Add, if_neg hc, List.mem_append,
        List.mem_singleton] at hr
      left
      rcases hr with hr | hr
      · rcases h2 r hr with hlt | ⟨hz, hnil⟩
        · omega
        · subst hz
          simp only [BlockBuilder.Add] at hgrow ⊢
          omega
      · subst hr
        exact hgrow
    · intro hnil
      exfalso
      have : (BlockBuilder.Add interval st key value).buffer.length = 0 := by
        rw [hnil]
        rfl
      omega
    · intro p hp
      simp only [BlockBuilder.Add, List.mem_append, List.mem_singleton] at hp
      rcases hp with hp | hp
      · have := h4 p hp
        omega
      · subst hp
        exact hgrow

theorem blockInv_build (interval : Nat) (kvs : List (List Nat × List Nat)) :
    BlockInv (BlockBuilder.build interval kvs) := by
  suffices h : ∀ st, BlockInv st →
      BlockInv (kvs.foldl (fun st kv => BlockBuilder.Add interval st kv.1 kv.2) st) by
    exact h BlockBuilder.empty blockInv_empty
  induction kvs with
  | nil => intro st hst; exact hst
  | cons kv rest ih =>
    intro st hst
    exact ih _ (blockInv_add interval st kv.1 kv.2 hst)

/-- C8 counterexample: with the default restart interval 16, adding keys
"a" then "b" yields a second entry whose `shared_len` is 0 (the keys
share no prefix) at offset 4, which is not a restart offset. -/
theorem blockBuilder_shared_zero_not_restart :
    (BlockBuilder.build 16 [([97], []), ([98], [])]).entries = [(0, 0), (4, 0)] ∧
    (BlockBuilder.build 16 [([97], []), ([98], [])]).restarts = [0] ∧
    ¬ (∀ p ∈ (BlockBuilder.build 16 [([97], []), ([98], [])]).entries,
        p.2 = 0 → p.1 ∈ (BlockBuilder.build 16 [([97], []), ([98], [])]).restarts) := by
  refine ⟨by decide, by decide, ?_⟩
  intro hall
  have := hall (4, 0) (by decide) rfl
  revert this
  decide

/-- C8 (amended): in every block produced by `BlockBuilder`, every entry
lying at a restart boundary — its byte offset within the block is one of
the offsets recorded in the restart array — has `shared_len = 0` (the
converse direction of the original claim). -/
theorem blockBuilder_restart_entries_shared_zero (interval : Nat)
    (kvs : List (List Nat × List Nat)) (p : Nat × Nat)
    (hp : p ∈ (BlockBuilder.build interval kvs).entries)
    (hr : p.1 ∈ (BlockBuilder.build interval kvs).restarts) :
    p.2 = 0 :=
  (blockInv_build interval kvs).1 p hp hr

/-- Witness for C8 at the first entry of a one-key block. -/
theorem blockBuilder_restart_entries_shared_zero_witness :
    ((0, 0) : Nat × Nat) ∈ (BlockBuilder.build 16 [([97], [])]).entries ∧
    (0 : Nat) ∈ (BlockBuilder.build 16 [([97], [])]).restarts ∧
    ((0, 0) : Nat × Nat).2 = 0 :=
  ⟨by decide, by decide,
   blockBuilder_restart_entries_shared_zero 16 [([97], [])] (0, 0)
     (by decide) (by decide)⟩

/-! ## util/cache.cc : LRUCache -/

/-- One cache entry (`LRUHandle`): key and charge. -/
structure CacheEntry where
  key : Nat
  charge : Nat
deriving DecidableEq

/-- An `LRUCache` shard: `capacity_`, the `lru_` list (front = least
recently used, i.e. `lru_.next`; entries whose only reference is the
cache), the `in_use_` list (entries also referenced by clients), and
`usage_`. -/
structure LRUCache where
  capacity : Nat
  lru : List CacheEntry
  inUse : List CacheEntry
  usage : Nat
deriving DecidableEq

/-- Sum of the charges of a list of entries. -/
def chargeSum (l : List CacheEntry) : Nat := (l.map CacheEntry.charge).sum

/-- Remove the first entry with the given key from a list (the hash
table keeps at most one entry per key). -/
def removeKey (key : Nat) : List CacheEntry → Option CacheEntry × List CacheEntry
  | [] => (none, [])
  | e :: rest =>
    if e.key = key then (some e, rest)
    else
      let r := removeKey key rest
      (r.1, e :: r.2)

/-- `LRUCache::FinishErase` applied to the old equal-keyed entry returned
by `table_.Insert(e)`: unlink it from whichever list holds it
(`LRU_Remove`) and subtract its charge from `usage_`.  If no such entry
exists this is a no-op. -/
def finishEraseKey (c : LRUCache) (key : Nat) : LRUCache :=
  match removeKey key c.lru with
  | (some e, lru2) => { c with lru := lru2, usage := c.usage - e.charge }
  | (none, _) =>
    match removeKey key c.inUse with
    | (some e, inUse2) => { c with inUse := inUse2, usage := c.usage - e.charge }
    | (none, _) => c

/-- The `while (usage_ > capacity_ && lru_.next != &lru_)` eviction loop
of `LRUCache::Insert`: repeatedly `FinishErase` the entry at the front of
`lru_`. -/
def evictLoop (capacity : Nat) : Nat → List CacheEntry → Nat × List CacheEntry
  | usage, [] => (usage, [])
  | usage, old :: rest =>
    if capacity < usage then evictLoop capacity (usage - old.charge) rest
    else (usage, old :: rest)

/-- `LRUCache::Insert` (util/cache.cc:388-435).  With `capacity_ > 0`
the new entry enters `in_use_` with `refs = 2` (cache + returned handle)
and `usage_ += charge`, and any previous entry with the same key is
erased (the source erases it after linking the new one, identified by
pointer; here the erase is done first, which is the same net effect);
with `capacity_ == 0` nothing is cached.  Finally the eviction loop
runs. -/
def LRUCache.Insert (c : LRUCache) (key charge : Nat) : LRUCache :=
  let c2 :=
    if 0 < c.capacity then
      let c1 := finishEraseKey c key
      { c1 with inUse := ⟨key, charge⟩ :: c1.inUse, usage := c1.usage + charge }
    else c
  let r := evictLoop c2.capacity c2.usage c2.lru
  { c2 with usage := r.1, lru := r.2 }

theorem chargeSum_append (a b : List CacheEntry) :
    chargeSum (a ++ b) = chargeSum a + chargeSum b := by
  simp [chargeSum]

theorem removeKey_some (key : Nat) :
    ∀ l e l2, removeKey key l = (some e, l2) →
      chargeSum l = e.charge + chargeSum l2 := by
  intro l
  induction l with
  | nil =>
    intro e l2 h
    simp [removeKey] at h
  | cons x rest ih =>
    intro e l2 h
    by_cases hx : x.key = key
    · rw [removeKey, if_pos hx] at h
      obtain ⟨he, hl⟩ := Prod.mk.injEq .. ▸ h
      cases he
      subst hl
      simp [chargeSum]
    · rw [removeKey, if_neg hx] at h
      have h1 : (removeKey key rest).1 = some e := by
        have := congrArg Prod.fst h
        simpa using this
      have h2 : x :: (removeKey key rest).2 = l2 := by
        have := congrArg Prod.snd h
        simpa using this
      have := ih e (removeKey key rest).2 (by rw [← h1])
      subst h2
      simp [chargeSum] at this ⊢
      omega

theorem finishEraseKey_sum (c : LRUCache) (key : Nat)
    (h : c.usage = chargeSum (c.lru ++ c.inUse)) :
    (finishEraseKey c key).usage =
      chargeSum ((finishEraseKey c key).lru ++ (finishEraseKey c key).inUse) := by
  rw [chargeSum_append] at h
  unfold finishEraseKey
  match h1 : removeKey key c.lru with
  | (some e, lru2) =>
    have := removeKey_some key c.lru e lru2 h1
    simp only [chargeSum_append]
    omega
  | (none, l2) =>
    match h2 : removeKey key c.inUse with
    | (some e, inUse2) =>
      have := removeKey_some key c.inUse e inUse2 h2
      simp only [chargeSum_append]
      omega
    | (none, l3) =>
      simp only [chargeSum_append]
      omega

theorem evictLoop_post (capacity : Nat) :
    ∀ usage lru, (evictLoop capacity usage lru).1 ≤ capacity ∨
      (evictLoop capacity usage lru).2 = [] := by
  intro usage lru
  induction lru generalizing usage with
  | nil =>
    right
    rfl
  | cons old rest ih =>
    by_cases hc : capacity < usage
    · rw [evictLoop, if_pos hc]
      exact ih (usage - old.charge)
    · rw [evictLoop, if_neg hc]
      left
      omega

theorem evictLoop_sum (capacity : Nat) :
    ∀ usage lru other, usage = chargeSum lru + other →
      (evictLoop capacity usage lru).1 =
        chargeSum (evictLoop capacity usage lru).2 + other := by
  intro usage lru
  induction lru generalizing usage with
  | nil =>
    intro other h
    simpa [evictLoop, chargeSum] using h
  | cons old rest ih =>
    intro other h
    by_cases hc : capacity < usage
    · rw [evictLoop, if_pos hc]
      apply ih
      simp [chargeSum] at h ⊢
      omega
    · rw [evictLoop, if_neg hc]
      exact h

/-- C4 counterexample: inserting a single entry of charge 2 into an empty
cache of capacity 1 leaves `usage_ = 2 > 1` — the just-inserted entry is
pinned by the returned handle (it is in `in_use_`, not `lru_`), so the
eviction loop cannot evict it. -/
theorem cache_insert_exceeds_capacity :
    (LRUCache.Insert ⟨1, [], [], 0⟩ 0 2).capacity = 1 ∧
    (LRUCache.Insert ⟨1, [], [], 0⟩ 0 2).usage = 2 ∧
    chargeSum ((LRUCache.Insert ⟨1, [], [], 0⟩ 0 2).lru ++
      (LRUCache.Insert ⟨1, [], [], 0⟩ 0 2).inUse) = 2 ∧
    ¬ ((LRUCache.Insert ⟨1, [], [], 0⟩ 0 2).usage ≤
        (LRUCache.Insert ⟨1, [], [], 0⟩ 0 2).capacity) := by
  decide

/-- C4 (amended): immediately after any `Insert` returns, the cache's
`usage_` equals the sum of the charges of all held entries, and it is at
most the capacity unless the `lru_` list is empty — i.e. unless every
remaining entry (including the one whose handle was just returned to the
caller) is pinned by a client reference and cannot be evicted. -/
theorem cache_insert_capacity_or_pinned (c : LRUCache) (key charge : Nat)
    (h : c.usage = chargeSum (c.lru ++ c.inUse)) :
    ((LRUCache.Insert c key charge).usage ≤
        (LRUCache.Insert c key charge).capacity ∨
      (LRUCache.Insert c key charge).lru = []) ∧
    (LRUCache.Insert c key charge).usage =
      chargeSum ((LRUCache.Insert c key charge).lru ++
        (LRUCache.Insert c key charge).inUse) := by
  have main : ∀ c2 : LRUCache, c2.usage = chargeSum (c2.lru ++ c2.inUse) →
      ((evictLoop c2.capacity c2.usage c2.lru).1 ≤ c2.capacity ∨
        (evictLoop c2.capacity c2.usage c2.lru).2 = []) ∧
      (evictLoop c2.capacity c2.usage c2.lru).1 =
        chargeSum ((evictLoop c2.capacity c2.usage c2.lru).2 ++ c2.inUse) := by
    intro c2 h2
    rw [chargeSum_append] at h2
    refine ⟨evictLoop_post _ _ _, ?_⟩
    rw [chargeSum_append]
    exact evictLoop_sum c2.capacity c2.usage c2.lru (chargeSum c2.inUse) h2
  refine main _ ?_
  by_cases hcap : 0 < c.capacity
  · simp only [if_pos hcap]
    show (finishEraseKey c key).usage + charge =
      chargeSum ((finishEraseKey c key).lru ++
        (⟨key, charge⟩ :: (finishEraseKey c key).inUse))
    have hsum := finishEraseKey_sum c key h
    rw [chargeSum_append] at hsum ⊢
    simp only [chargeSum, List.map_cons, List.sum_cons] at hsum ⊢
    omega
  · simp only [if_neg hcap]
    exact h

/-- Witness for C4's amended theorem: inserting into an empty cache of
capacity 10. -/
theorem cache_insert_capacity_or_pinned_witness :
    ((LRUCache.Insert ⟨10, [], [], 0⟩ 7 3).usage ≤
        (LRUCache.Insert ⟨10, [], [], 0⟩ 7 3).capacity ∨
      (LRUCache.Insert ⟨10, [], [], 0⟩ 7 3).lru = []) ∧
    (LRUCache.Insert ⟨10, [], [], 0⟩ 7 3).usage =
      chargeSum ((LRUCache.Insert ⟨10, [], [], 0⟩ 7 3).lru ++
        (LRUCache.Insert ⟨10, [], [], 0⟩ 7 3).inUse) :=
  cache_insert_capacity_or_pinned ⟨10, [], [], 0⟩ 7 3 (by decide)

/-! ## db/version_set.cc and db/db_impl.cc : compaction key dropping -/

/-- `Slice::compare` (include/leveldb/slice.h), which implements the
default `BytewiseComparatorImpl::Compare`: memcmp over the common prefix,
then shorter-is-smaller — i.e. lexicographic byte order. -/
def sliceCompare : List Nat → List Nat → Ordering
  | [], [] => .eq
  | [], _ :: _ => .lt
  | _ :: _, [] => .gt
  | a :: as, b :: bs =>
    if a < b then .lt
    else if b < a then .gt
    else sliceCompare as bs

/-- `Compare(a, b) <= 0`. -/
def ule (a b : List Nat) : Prop := sliceCompare a b ≠ .gt

/-- `Compare(a, b) < 0`. -/
def ult (a b : List Nat) : Prop := sliceCompare a b = .lt

theorem sliceCompare_eq_iff : ∀ a b, sliceCompare a b = .eq ↔ a = b := by
  intro a
  induction a with
  | nil =>
    intro b
    cases b with
    | nil => simp [sliceCompare]
    | cons y ys => simp [sliceCompare]
  | cons x xs ih =>
    intro b
    cases b with
    | nil => simp [sliceCompare]
    | cons y ys =>
      show (if x < y then Ordering.lt else if y < x then .gt else sliceCompare xs ys) = .eq ↔ _
      split_ifs with h1 h2
      · simp
        omega
      · simp
        omega
      · have hxy : x = y := by omega
        rw [ih ys]
        simp [hxy]

theorem sliceCompare_swap : ∀ a b, sliceCompare b a = (sliceCompare a b).swap := by
  intro a
  induction a with
  | nil =>
    intro b
    cases b <;> rfl
  | cons x xs ih =>
    intro b
    cases b with
    | nil => rfl
    | cons y ys =>
      show (if y < x then Ordering.lt else if x < y then .gt else sliceCompare ys xs) =
        (if x < y then Ordering.lt else if y < x then .gt else sliceCompare xs ys).swap
      split_ifs with h1 h2 <;> first
        | rfl
        | omega
        | exact ih ys

theorem sliceCompare_lt_trans :
    ∀ a b c, sliceCompare a b = .lt → sliceCompare b c = .lt →
      sliceCompare a c = .lt := by
  intro a
  induction a with
  | nil =>
    intro b c hab hbc
    cases b with
    | nil => exact absurd hab (by simp [sliceCompare])
    | cons y ys =>
      cases c with
      | nil => exact absurd hbc (by simp [sliceCompare])
      | cons z zs => rfl
  | cons x xs ih =>
    intro b c hab hbc
    cases b with
    | nil => exact absurd hab (by simp [sliceCompare])
    | cons y ys =>
      cases c with
      | nil => exact absurd hbc (by simp [sliceCompare])
      | cons z zs =>
        revert hab hbc
        show (if x < y then Ordering.lt else if y < x then .gt else sliceCompare xs ys) = .lt →
          (if y < z then Ordering.lt else if z < y then .gt else sliceCompare ys zs) = .lt →
          (if x < z then Ordering.lt else if z < x then .gt else sliceCompare xs zs) = .lt
        split_ifs with h1 h2 h3 h4 h5 h6 h7 <;> intro hab hbc <;>
          first
            | rfl
            | exact hab.elim
            | exact hbc.elim
            | exact ih ys zs hab hbc
            | (exfalso; omega)

theorem ult_or_eq_of_ule {a b : List Nat} (h : ule a b) : ult a b ∨ a = b := by
  unfold ule at h
  unfold ult
  cases hc : sliceCompare a b with
  | lt => exact Or.inl rfl
  | eq => exact Or.inr ((sliceCompare_eq_iff a b).mp hc)
  | gt => exact absurd hc h

theorem ule_of_ult {a b : List Nat} (h : ult a b) : ule a b := by
  unfold ult at h
  unfold ule
  rw [h]
  simp

theorem ule_refl (a : List Nat) : ule a a := by
  unfold ule
  rw [(sliceCompare_eq_iff a a).mpr rfl]
  simp

theorem ult_of_ult_of_ule {a b c : List Nat} (h1 : ult a b) (h2 : ule b c) :
    ult a c := by
  rcases ult_or_eq_of_ule h2 with h2l | rfl
  · exact sliceCompare_lt_trans a b c h1 h2l
  · exact h1

theorem ule_trans {a b c : List Nat} (h1 : ule a b) (h2 : ule b c) : ule a c := by
  rcases ult_or_eq_of_ule h1 with h1l | rfl
  · exact ule_of_ult (ult_of_ult_of_ule h1l h2)
  · exact h2

theorem not_ule_of_ult_swap {a b : List Nat} (h : ult a b) : ¬ ule b a := by
  unfold ult at h
  unfold ule
  rw [sliceCompare_swap, h]
  simp [Ordering.swap]

theorem ule_antisymm {a b : List Nat} (h1 : ule a b) (h2 : ule b a) : a = b := by
  rcases ult_or_eq_of_ule h1 with h1l | rfl
  · exact absurd h2 (not_ule_of_ult_swap h1l)
  · rfl

theorem not_ult_self (a : List Nat) : ¬ ult a a := by
  unfold ult
  rw [(sliceCompare_eq_iff a a).mpr rfl]
  simp

/-- `config::kNumLevels` from db/dbformat.h. -/
def kNumLevels : Nat := 7

/-- `kMaxSequenceNumber` from db/dbformat.h. -/
def kMaxSequenceNumber : Nat := (1 <<< 56) - 1

/-- The part of `FileMetaData` consulted by `IsBaseLevelForKey`: the user
keys of its smallest and largest internal keys. -/
structure FileMeta where
  smallest : List Nat
  largest : List Nat

/-- The state consulted and mutated by `Compaction::IsBaseLevelForKey`:
the compaction's `level_`, the input version's per-level file lists, and
`level_ptrs_`. -/
structure CompactionCtx where
  level : Nat
  files : Nat → List FileMeta
  levelPtrs : Nat → Nat

/-- The inner `while (level_ptrs_[lvl] < files.size())` loop of
`Compaction::IsBaseLevelForKey` on one level: skip files whose largest
user key is below `user_key`; on the first file with `largest ≥
user_key`, report whether `user_key ≥ smallest` (key falls in range).
Returns `(base-level-still-possible, new ptr)`. -/
def levelScan (fs : List FileMeta) (ukey : List Nat) (ptr : Nat) : Bool × Nat :=
  if h : ptr < fs.length then
    let f := fs.get ⟨ptr, h⟩
    if sliceCompare ukey f.largest ≠ .gt then
      if sliceCompare ukey f.smallest ≠ .lt then (false, ptr)
      else (true, ptr)
    else levelScan fs ukey (ptr + 1)
  else (true, ptr)
termination_by fs.length - ptr

/-- The outer `for (lvl = level_ + 2; lvl < config::kNumLevels; lvl++)`
loop of `IsBaseLevelForKey`; `fuel = kNumLevels - lvl` iterations
remain. -/
def isBaseLoop (files : Nat → List FileMeta) (ukey : List Nat) :
    (Nat → Nat) → Nat → Nat → Bool × (Nat → Nat)
  | ptrs, _, 0 => (true, ptrs)
  | ptrs, lvl, fuel + 1 =>
    let r := levelScan (files lvl) ukey (ptrs lvl)
    let ptrs2 := fun l => if l = lvl then r.2 else ptrs l
    if r.1 then isBaseLoop files ukey ptrs2 (lvl + 1) fuel
    else (false, ptrs2)

/-- `Compaction::IsBaseLevelForKey` (db/version_set.cc:1841-1860). -/
def Compaction.IsBaseLevelForKey (ctx : CompactionCtx) (ukey : List Nat) :
    Bool × CompactionCtx :=
  let r := isBaseLoop ctx.files ukey ctx.levelPtrs (ctx.level + 2)
    (kNumLevels - (ctx.level + 2))
  (r.1, { ctx with levelPtrs := r.2 })

/-- A file range contains a user key (w.r.t. the bytewise comparator). -/
def fileContains (ukey : List Nat) (f : FileMeta) : Prop :=
  sliceCompare ukey f.largest ≠ .gt ∧ sliceCompare ukey f.smallest ≠ .lt

/-- No file at any level strictly greater than `level + 1` contains the
user key. -/
def noLaterLevelContains (level : Nat) (files : Nat → List FileMeta)
    (ukey : List Nat) : Prop :=
  ∀ lvl, level + 2 ≤ lvl → lvl < kNumLevels → ∀ f ∈ files lvl, ¬ fileContains ukey f

/-- Spec invariant 2 (levels ≥ 1 are key-disjoint and sorted): each file
has `smallest ≤ largest` and earlier files end strictly before later
files begin. -/
def LevelSorted (fs : List FileMeta) : Prop :=
  (∀ f ∈ fs, ule f.smallest f.largest) ∧
  (∀ i j (hi : i < fs.length) (hj : j < fs.length), i < j →
    ult (fs.get ⟨i, hi⟩).largest (fs.get ⟨j, hj⟩).smallest)

theorem ult_of_ule_of_ult {a b c : List Nat} (h1 : ule a b) (h2 : ult b c) :
    ult a c := by
  rcases ult_or_eq_of_ule h1 with h1l | rfl
  · exact sliceCompare_lt_trans a b c h1l h2
  · exact h2

theorem gt_of_ult_swap {a b : List Nat} (h : ult a b) : sliceCompare b a = .gt := by
  unfold ult at h
  rw [sliceCompare_swap, h]
  rfl

theorem levelScan_spec (fs : List FileMeta) (hfs : LevelSorted fs) (u : List Nat) :
    ∀ d ptr, fs.length - ptr ≤ d → ptr ≤ fs.length →
      (∀ idx (h : idx < fs.length), idx < ptr → ult (fs.get ⟨idx, h⟩).largest u) →
      (((levelScan fs u ptr).1 = false) ↔ ∃ f ∈ fs, fileContains u f) ∧
      (∀ idx (h : idx < fs.length), idx < (levelScan fs u ptr).2 →
        ult (fs.get ⟨idx, h⟩).largest u) ∧
      (levelScan fs u ptr).2 ≤ fs.length := by
  intro d
  induction d with
  | zero =>
    intro ptr hd hle hpre
    have hptr : ptr = fs.length := by omega
    rw [levelScan, dif_neg (by omega)]
    refine ⟨?_, ?_, hle⟩
    · simp only [show (true = false) ↔ False by simp, false_iff]
      rintro ⟨f, hmem, hc1, hc2⟩
      obtain ⟨i, hi⟩ := List.mem_iff_get.mp hmem
      have := hpre i.1 i.2 (by omega)
      rw [hi] at this
      exact hc1 (gt_of_ult_swap this)
    · intro idx h hidx
      exact hpre idx h hidx
  | succ d ih =>
    intro ptr hd hle hpre
    by_cases hp : ptr < fs.length
    · rw [levelScan, dif_pos hp]
      by_cases h1 : sliceCompare u (fs.get ⟨ptr, hp⟩).largest ≠ .gt
      · rw [if_pos h1]
        by_cases h2 : sliceCompare u (fs.get ⟨ptr, hp⟩).smallest ≠ .lt
        · rw [if_pos h2]
          refine ⟨?_, hpre, by omega⟩
          simp only [true_iff]
          exact ⟨fs.get ⟨ptr, hp⟩, List.get_mem fs ptr hp, h1, h2⟩
        · rw [if_neg h2]
          push_neg at h2
          refine ⟨?_, hpre, by omega⟩
          simp only [show (true = false) ↔ False by simp, false_iff]
          rintro ⟨f, hmem, hc1, hc2⟩
          obtain ⟨i, hi⟩ := List.mem_iff_get.mp hmem
          rcases Nat.lt_trichotomy i.1 ptr with hlt | heq | hgt
          · have := hpre i.1 i.2 hlt
            rw [hi] at this
            exact hc1 (gt_of_ult_swap this)
          · have hieq : i = ⟨ptr, hp⟩ := Fin.ext heq
            rw [hieq] at hi
            rw [hi] at h2
            exact hc2 h2
          · have hdis := hfs.2 ptr i.1 hp i.2 hgt
            have : ult u f.smallest := by
              rw [← hi]
              exact ult_of_ule_of_ult h1 hdis
            exact hc2 this
      · rw [if_neg h1]
        push_neg at h1
        apply ih (ptr + 1) (by omega) (by omega)
        intro idx h hidx
        rcases Nat.lt_or_ge idx ptr with hlt | hge
        · exact hpre idx h hlt
        · have : idx = ptr := by omega
          subst this
          have heq : (⟨idx, h⟩ : Fin fs.length) = ⟨idx, hp⟩ := rfl
          rw [heq]
          unfold ult
          rw [sliceCompare_swap, h1]
          rfl
    · rw [levelScan, dif_neg hp]
      refine ⟨?_, hpre, hle⟩
      simp only [show (true = false) ↔ False by simp, false_iff]
      rintro ⟨f, hmem, hc1, hc2⟩
      obtain ⟨i, hi⟩ := List.mem_iff_get.mp hmem
      have := hpre i.1 i.2 (by omega)
      rw [hi] at this
      exact hc1 (gt_of_ult_swap this)

theorem isBaseLoop_spec (files : Nat → List FileMeta)
    (hfiles : ∀ l, LevelSorted (files l)) (u : List Nat) :
    ∀ fuel lvl ptrs,
      (∀ l, ptrs l ≤ (files l).length) →
      (∀ l idx (h : idx < (files l).length), idx < ptrs l →
        ult ((files l).get ⟨idx, h⟩).largest u) →
      (((isBaseLoop files u ptrs lvl fuel).1 = true) ↔
        ∀ l, lvl ≤ l → l < lvl + fuel → ∀ f ∈ files l, ¬ fileContains u f) ∧
      (∀ l, (isBaseLoop files u ptrs lvl fuel).2 l ≤ (files l).length) ∧
      (∀ l idx (h : idx < (files l).length),
        idx < (isBaseLoop files u ptrs lvl fuel).2 l →
        ult ((files l).get ⟨idx, h⟩).largest u) := by
  intro fuel
  induction fuel with
  | zero =>
    intro lvl ptrs hb hinv
    refine ⟨?_, hb, hinv⟩
    simp only [isBaseLoop, true_iff]
    intro l hl1 hl2
    omega
  | succ fuel ih =>
    intro lvl ptrs hb hinv
    obtain ⟨hs1, hs2, hs3⟩ := levelScan_spec (files lvl) (hfiles lvl) u
      ((files lvl).length - ptrs lvl) (ptrs lvl) (le_refl _) (hb lvl)
      (hinv lvl)
    have hb2 : ∀ l, (fun l => if l = lvl then (levelScan (files lvl) u (ptrs lvl)).2
        else ptrs l) l ≤ (files l).length := by
      intro l
      by_cases hl : l = lvl
      · subst hl
        simpa using hs3
      · simpa [hl] using hb l
    have hinv2 : ∀ l idx (h : idx < (files l).length),
        idx < (fun l => if l = lvl then (levelScan (files lvl) u (ptrs lvl)).2
          else ptrs l) l →
        ult ((files l).get ⟨idx, h⟩).largest u := by
      intro l idx h hidx
      by_cases hl : l = lvl
      · subst hl
        simp only [if_pos rfl] at hidx
        exact hs2 idx h hidx
      · simp only [if_neg hl] at hidx
        exact hinv l idx h hidx
    by_cases hr : (levelScan (files lvl) u (ptrs lvl)).1 = true
    · have hstep : isBaseLoop files u ptrs lvl (fuel + 1) =
          isBaseLoop files u
            (fun l => if l = lvl then (levelScan (files lvl) u (ptrs lvl)).2
              else ptrs l) (lvl + 1) fuel := by
        rw [isBaseLoop]
        simp only [hr, if_true]
      obtain ⟨ihiff, ihb, ihinv⟩ := ih (lvl + 1) _ hb2 hinv2
      rw [hstep]
      refine ⟨?_, ihb, ihinv⟩
      rw [ihiff]
      constructor
      · intro hall l hl1 hl2
        rcases Nat.eq_or_lt_of_le hl1 with heq | hlt
        · subst heq
          intro f hf hc
          have hex : ∃ g ∈ files lvl, fileContains u g := ⟨f, hf, hc⟩
          have hfalse := hs1.mpr hex
          rw [hr] at hfalse
          simp at hfalse
        · exact hall l hlt (by omega)
      · intro hall l hl1 hl2
        exact hall l (by omega) (by omega)
    · have hrf : (levelScan (files lvl) u (ptrs lvl)).1 = false := by
        revert hr
        cases (levelScan (files lvl) u (ptrs lvl)).1 <;> simp
      have hstep : isBaseLoop files u ptrs lvl (fuel + 1) =
          (false, fun l => if l = lvl then (levelScan (files lvl) u (ptrs lvl)).2
            else ptrs l) := by
        rw [isBaseLoop]
        simp only [hrf]
        rfl
      rw [hstep]
      refine ⟨?_, hb2, hinv2⟩
      simp only [show (false = true) ↔ False by simp, false_iff]
      intro hall
      obtain ⟨f, hf, hc⟩ := hs1.mp hrf
      exact hall lvl (le_refl _) (by omega) f hf hc

theorem isBaseLevelForKey_spec (lvl0 : Nat) (files : Nat → List FileMeta)
    (hfiles : ∀ l, LevelSorted (files l)) (u : List Nat) (ptrs : Nat → Nat)
    (hb : ∀ l, ptrs l ≤ (files l).length)
    (hinv : ∀ l idx (h : idx < (files l).length), idx < ptrs l →
      ult ((files l).get ⟨idx, h⟩).largest u) :
    (((Compaction.IsBaseLevelForKey ⟨lvl0, files, ptrs⟩ u).1 = true) ↔
      noLaterLevelContains lvl0 files u) ∧
    (∀ l, (Compaction.IsBaseLevelForKey ⟨lvl0, files, ptrs⟩ u).2.levelPtrs l ≤
      (files l).length) ∧
    (∀ l idx (h : idx < (files l).length),
      idx < (Compaction.IsBaseLevelForKey ⟨lvl0, files, ptrs⟩ u).2.levelPtrs l →
      ult ((files l).get ⟨idx, h⟩).largest u) := by
  obtain ⟨hiff, hb2, hinv2⟩ := isBaseLoop_spec files hfiles u
    (kNumLevels - (lvl0 + 2)) (lvl0 + 2) ptrs hb hinv
  refine ⟨?_, hb2, hinv2⟩
  rw [show (Compaction.IsBaseLevelForKey ⟨lvl0, files, ptrs⟩ u).1 =
    (isBaseLoop files u ptrs (lvl0 + 2) (kNumLevels - (lvl0 + 2))).1 from rfl, hiff]
  unfold noLaterLevelContains
  constructor
  · intro h l h1 h2
    apply h l h1
    unfold kNumLevels at h2 ⊢
    omega
  · intro h l h1 h2
    apply h l h1
    unfold kNumLevels at h2 ⊢
    omega

/-- A parsed internal key (`ParsedInternalKey`) as consulted by the
merge loop. -/
structure IKey where
  userKey : List Nat
  seq : Nat
  type : ValueType

/-- Default entry for `getD` access. -/
def dIKey : IKey := ⟨[], 0, .typeValue⟩

/-- The per-entry drop decision of the merge loop of
`DBImpl::DoCompactionWork` (db/db_impl.cc:1090-1161), restricted to
entries whose internal keys parse (the `ParseInternalKey` failure branch
only handles corrupt keys).  State: `has_current_user_key`,
`current_user_key`, `last_sequence_for_key`, and the compaction's
`level_ptrs_` (threaded through `IsBaseLevelForKey`). -/
def dropLoop (smallest : Nat) :
    List IKey → CompactionCtx → Bool → List Nat → Nat → List Bool
  | [], _, _, _, _ => []
  | e :: rest, ctx, hasCur, curKey, lastSeq =>
    let firstOcc : Bool := !hasCur || decide (sliceCompare e.userKey curKey ≠ .eq)
    let curKey2 := if firstOcc then e.userKey else curKey
    let lastSeq2 := if firstOcc then kMaxSequenceNumber else lastSeq
    let r :=
      if lastSeq2 ≤ smallest then (true, ctx)
      else if e.type = .typeDeletion ∧ e.seq ≤ smallest then
        Compaction.IsBaseLevelForKey ctx e.userKey
      else (false, ctx)
    r.1 :: dropLoop smallest rest r.2 true curKey2 e.seq

/-- The drop decisions of `DoCompactionWork` over a parsed entry stream,
starting from the initial merge-loop state (`has_current_user_key =
false`, `last_sequence_for_key = kMaxSequenceNumber`). -/
def DoCompactionWorkDrops (smallest : Nat) (ctx : CompactionCtx)
    (entries : List IKey) : List Bool :=
  dropLoop smallest entries ctx false [] kMaxSequenceNumber

/-- The merged input stream is sorted by internal key: user keys
ascending, and sequence numbers non-increasing within one user key. -/
def EntriesSorted (entries : List IKey) : Prop :=
  ∀ i j, i < j → j < entries.length →
    ule (entries.getD i dIKey).userKey (entries.getD j dIKey).userKey ∧
    ((entries.getD i dIKey).userKey = (entries.getD j dIKey).userKey →
      (entries.getD j dIKey).seq ≤ (entries.getD i dIKey).seq)

/-- Claim condition (A): an earlier merged entry with the same user key
had sequence ≤ `smallest_snapshot`. -/
def dropA (smallest : Nat) (entries : List IKey) (i : Nat) : Prop :=
  ∃ j, j < i ∧
    (entries.getD j dIKey).userKey = (entries.getD i dIKey).userKey ∧
    (entries.getD j dIKey).seq ≤ smallest

/-- Claim condition (B): the entry is a deletion with sequence ≤
`smallest_snapshot` and no file at any level greater than L+1 contains
its user key. -/
def dropB (smallest lvl0 : Nat) (files : Nat → List FileMeta)
    (entries : List IKey) (i : Nat) : Prop :=
  (entries.getD i dIKey).type = .typeDeletion ∧
  (entries.getD i dIKey).seq ≤ smallest ∧
  noLaterLevelContains lvl0 files (entries.getD i dIKey).userKey

theorem getD_append_lt {α : Type} (l1 l2 : List α) (d : α) {i : Nat}
    (h : i < l1.length) : (l1 ++ l2).getD i d = l1.getD i d := by
  simp [List.getD_eq_getElem?_getD, List.getElem?_append, h]

theorem getD_append_len {α : Type} (l1 : List α) (x : α) (l2 : List α) (d : α) :
    (l1 ++ x :: l2).getD l1.length d = x := by
  rw [List.getD_eq_getElem?_getD,
    List.getElem?_append_right (le_refl l1.length)]
  simp

theorem dropLoop_spec (smallest lvl0 : Nat) (files : Nat → List FileMeta)
    (hfiles : ∀ l, LevelSorted (files l)) (hsnap : smallest < kMaxSequenceNumber) :
    ∀ (rest processed : List IKey) (hasCur : Bool) (curKey : List Nat)
      (lastSeq : Nat) (ptrs : Nat → Nat),
      EntriesSorted (processed ++ rest) →
      (hasCur = false → processed = []) →
      (hasCur = true → processed ≠ [] ∧
        curKey = (processed.getD (processed.length - 1) dIKey).userKey ∧
        lastSeq = (processed.getD (processed.length - 1) dIKey).seq) →
      (∀ l, ptrs l ≤ (files l).length) →
      (∀ l idx (h : idx < (files l).length), idx < ptrs l →
        hasCur = true ∧ ult ((files l).get ⟨idx, h⟩).largest curKey) →
      ∀ i, i < rest.length →
        ((dropLoop smallest rest ⟨lvl0, files, ptrs⟩ hasCur curKey lastSeq).getD
            i false = true ↔
          (dropA smallest (processed ++ rest) (processed.length + i) ∨
           dropB smallest lvl0 files (processed ++ rest) (processed.length + i))) := by
  intro rest
  induction rest with
  | nil =>
    intro processed hasCur curKey lastSeq ptrs hsort hI1 hI2 hb hI3 i hi
    simp at hi
  | cons e rest2 ih =>
    intro processed hasCur curKey lastSeq ptrs hsort hI1 hI2 hb hI3 i hi
    have hgetn : (processed ++ e :: rest2).getD processed.length dIKey = e :=
      getD_append_len processed e rest2 dIKey
    have hfullen : processed.length < (processed ++ e :: rest2).length := by
      simp
    -- the step values
    set firstOccE : Bool :=
      (!hasCur || decide (sliceCompare e.userKey curKey ≠ .eq)) with hfo
    set lastSeq2 := if firstOccE then kMaxSequenceNumber else lastSeq with hls2
    set stepR : Bool × CompactionCtx :=
      (if lastSeq2 ≤ smallest then (true, ⟨lvl0, files, ptrs⟩)
       else if e.type = .typeDeletion ∧ e.seq ≤ smallest then
         Compaction.IsBaseLevelForKey ⟨lvl0, files, ptrs⟩ e.userKey
       else (false, ⟨lvl0, files, ptrs⟩)) with hsr
    have hstep : dropLoop smallest (e :: rest2) ⟨lvl0, files, ptrs⟩ hasCur
        curKey lastSeq =
        stepR.1 :: dropLoop smallest rest2 stepR.2 true
          (if firstOccE then e.userKey else curKey) e.seq := rfl
    -- fact: the new current key is always e.userKey
    have hck2 : (if firstOccE then e.userKey else curKey) = e.userKey := by
      by_cases hf : firstOccE = true
      · rw [if_pos hf]
      · have hf2 : firstOccE = false := by
          revert hf
          cases firstOccE <;> simp
        have heq : sliceCompare e.userKey curKey = .eq := by
          by_contra hne2
          rw [hfo] at hf2
          simp [hne2] at hf2
        rw [if_neg (by simp [hf2])]
        exact ((sliceCompare_eq_iff e.userKey curKey).mp heq).symm
    -- when hasCur holds, processed is nonempty and curKey ≤ e.userKey
    have hcurfacts : hasCur = true →
        1 ≤ processed.length ∧ ule curKey e.userKey := by
      intro hc
      obtain ⟨hne, hck, _⟩ := hI2 hc
      have hlen : 1 ≤ processed.length := by
        cases processed with
        | nil => exact absurd rfl hne
        | cons a b => simp
      refine ⟨hlen, ?_⟩
      have := (hsort (processed.length - 1) processed.length (by omega)
        (by simpa using hfullen)).1
      rw [hgetn, getD_append_lt processed _ dIKey (by omega)] at this
      rw [hck]
      exact this
    -- the (A) equivalence
    have hAiff : (lastSeq2 ≤ smallest) ↔
        dropA smallest (processed ++ e :: rest2) processed.length := by
      by_cases hf : firstOccE = true
      · rw [hls2, if_pos hf]
        constructor
        · intro h
          exfalso
          unfold kMaxSequenceNumber at hsnap h
          omega
        · intro hA
          exfalso
          obtain ⟨j, hj, hkey, hseq⟩ := hA
          by_cases hc : hasCur = true
          · -- firstOcc with hasCur: the keys differ, contradiction
            have hdiff : e.userKey ≠ curKey := by
              rw [hfo] at hf
              simp only [hc, Bool.not_true, Bool.false_or,
                decide_eq_true_eq] at hf
              intro hkeq
              exact hf ((sliceCompare_eq_iff e.userKey curKey).mpr hkeq)
            obtain ⟨hne, hck, _⟩ := hI2 hc
            have hlen : 1 ≤ processed.length := (hcurfacts hc).1
            have hkeyj : ((processed ++ e :: rest2).getD j dIKey).userKey =
                e.userKey := by
              rw [hkey, hgetn]
            have hklast : ((processed ++ e :: rest2).getD (processed.length - 1)
                dIKey).userKey = curKey := by
              rw [getD_append_lt processed _ dIKey (by omega), hck]
            rcases Nat.lt_or_ge j (processed.length - 1) with hjlt | hjge
            · have hs1 := (hsort j (processed.length - 1) hjlt
                (by simp; omega)).1
              have hs2 := (hsort (processed.length - 1) processed.length
                (by omega) (by simpa using hfullen)).1
              rw [hkeyj, hklast] at hs1
              rw [hklast, hgetn] at hs2
              exact hdiff (ule_antisymm hs1 hs2)
            · have : j = processed.length - 1 := by omega
              subst this
              rw [hkeyj] at hklast
              exact hdiff hklast
          · have hc2 : hasCur = false := by
              revert hc
              cases hasCur <;> simp
            have : processed = [] := hI1 hc2
            rw [this] at hj
            simp at hj
      · have hf2 : firstOccE = false := by
          revert hf
          cases firstOccE <;> simp
        rw [hls2, hf2]
        simp only [Bool.false_eq_true, if_false]
        have hc : hasCur = true := by
          by_contra hcn
          have hcf : hasCur = false := by
            revert hcn
            cases hasCur <;> simp
          rw [hfo, hcf] at hf2
          simp at hf2
        obtain ⟨hne, hck, hlseq⟩ := hI2 hc
        have hlen : 1 ≤ processed.length := (hcurfacts hc).1
        have hkeq : e.userKey = curKey := by
          have heq : sliceCompare e.userKey curKey = .eq := by
            by_contra hne2
            rw [hfo] at hf2
            simp [hne2] at hf2
          exact (sliceCompare_eq_iff e.userKey curKey).mp heq
        have hklast : ((processed ++ e :: rest2).getD (processed.length - 1)
            dIKey).userKey = curKey := by
          rw [getD_append_lt processed _ dIKey (by omega), hck]
        have hslast : ((processed ++ e :: rest2).getD (processed.length - 1)
            dIKey).seq = lastSeq := by
          rw [getD_append_lt processed _ dIKey (by omega), hlseq]
        constructor
        · intro h
          exact ⟨processed.length - 1, by omega, by rw [hklast, hgetn, hkeq],
            by rw [hslast]; exact h⟩
        · rintro ⟨j, hj, hkey, hseq⟩
          rcases Nat.lt_or_ge j (processed.length - 1) with hjlt | hjge
          · have hs1 := hsort j (processed.length - 1) hjlt (by simp; omega)
            have hkeyj : ((processed ++ e :: rest2).getD j dIKey).userKey =
                ((processed ++ e :: rest2).getD (processed.length - 1)
                  dIKey).userKey := by
              rw [hkey, hgetn, hkeq, hklast]
            have := hs1.2 hkeyj
            rw [hslast] at this
            omega
          · have : j = processed.length - 1 := by omega
            subst this
            rw [hslast] at hseq
            exact hseq
    -- pre-invariant of the level pointers w.r.t. e.userKey
    have hI3e : ∀ l idx (h : idx < (files l).length), idx < ptrs l →
        ult ((files l).get ⟨idx, h⟩).largest e.userKey := by
      intro l idx h hidx
      obtain ⟨hc, hu⟩ := hI3 l idx h hidx
      exact ult_of_ult_of_ule hu (hcurfacts hc).2
    rw [hstep]
    match i with
    | 0 =>
      rw [List.getD_cons_zero, Nat.add_zero]
      by_cases hls : lastSeq2 ≤ smallest
      · rw [hsr]
        simp only [if_pos hls]
        simp only [true_iff]
        exact Or.inl (hAiff.mp hls)
      · have hnA : ¬ dropA smallest (processed ++ e :: rest2) processed.length := by
          intro hA
          exact hls (hAiff.mpr hA)
        by_cases hcond : e.type = .typeDeletion ∧ e.seq ≤ smallest
        · rw [hsr]
          simp only [if_neg hls, if_pos hcond]
          obtain ⟨hbase, _, _⟩ := isBaseLevelForKey_spec lvl0 files hfiles
            e.userKey ptrs hb hI3e
          rw [hbase]
          unfold dropB
          rw [hgetn]
          constructor
          · intro hnl
            exact Or.inr ⟨hcond.1, hcond.2, hnl⟩
          · rintro (hA | hB)
            · exact absurd hA hnA
            · exact hB.2.2
        · rw [hsr]
          simp only [if_neg hls, if_neg hcond]
          simp only [show (false = true) ↔ False by simp, false_iff]
          rintro (hA | hB)
          · exact hnA hA
          · unfold dropB at hB
            rw [hgetn] at hB
            exact hcond ⟨hB.1, hB.2.1⟩
    | i + 1 =>
      rw [List.getD_cons_succ]
      -- new invariants for the recursive call on `rest2`
      have hI3new : ∀ l idx (h : idx < (files l).length),
          idx < stepR.2.levelPtrs l →
          ult ((files l).get ⟨idx, h⟩).largest e.userKey := by
        intro l idx h hidx
        rw [hsr] at hidx
        by_cases hls : lastSeq2 ≤ smallest
        · simp only [if_pos hls] at hidx
          exact hI3e l idx h hidx
        · by_cases hcond : e.type = .typeDeletion ∧ e.seq ≤ smallest
          · simp only [if_neg hls, if_pos hcond] at hidx
            obtain ⟨_, _, hpost⟩ := isBaseLevelForKey_spec lvl0 files hfiles
              e.userKey ptrs hb hI3e
            exact hpost l idx h hidx
          · simp only [if_neg hls, if_neg hcond] at hidx
            exact hI3e l idx h hidx
      have hbnew : ∀ l, stepR.2.levelPtrs l ≤ (files l).length := by
        intro l
        rw [hsr]
        by_cases hls : lastSeq2 ≤ smallest
        · simp only [if_pos hls]
          exact hb l
        · by_cases hcond : e.type = .typeDeletion ∧ e.seq ≤ smallest
          · simp only [if_neg hls, if_pos hcond]
            obtain ⟨_, hbb, _⟩ := isBaseLevelForKey_spec lvl0 files hfiles
              e.userKey ptrs hb hI3e
            exact hbb l
          · simp only [if_neg hls, if_neg hcond]
            exact hb l
      have hctx2 : stepR.2 = ⟨lvl0, files, stepR.2.levelPtrs⟩ := by
        rw [hsr]
        by_cases hls : lastSeq2 ≤ smallest
        · simp only [if_pos hls]
        · by_cases hcond : e.type = .typeDeletion ∧ e.seq ≤ smallest
          · simp only [if_neg hls, if_pos hcond]
            rfl
          · simp only [if_neg hls, if_neg hcond]
      have hrec := ih (processed ++ [e]) true e.userKey e.seq
        stepR.2.levelPtrs
        (by rw [List.append_assoc, List.singleton_append]; exact hsort)
        (by intro h; exact absurd h (by simp))
        (by
          intro _
          refine ⟨by simp, ?_, ?_⟩
          · rw [show (processed ++ [e]).length - 1 = processed.length by simp,
              getD_append_len processed e [] dIKey]
          · rw [show (processed ++ [e]).length - 1 = processed.length by simp,
              getD_append_len processed e [] dIKey])
        hbnew
        (by
          intro l idx h hidx
          exact ⟨rfl, hI3new l idx h hidx⟩)
        i
        (by simpa using hi)
      rw [hck2, hctx2]
      rw [hrec]
      rw [List.append_assoc, List.singleton_append,
        show (processed ++ [e]).length + i = processed.length + (i + 1) by
          simp
          omega]

/-- C2: During the compaction merge loop over a sorted merged input
stream (user keys ascending, sequence numbers non-increasing within
one user key), with level files disjoint and sorted and the level
pointers starting at 0, an entry is dropped if and only if either
(A) an earlier merged entry with the same user key had sequence ≤
smallest_snapshot, or (B) the entry is a deletion with sequence ≤
smallest_snapshot and no file at any level greater than L+1 contains
its user key; every other entry is kept. -/
theorem compaction_drop_iff (smallest lvl0 : Nat) (files : Nat → List FileMeta)
    (entries : List IKey) (i : Nat)
    (hfiles : ∀ l, LevelSorted (files l))
    (hsnap : smallest < kMaxSequenceNumber)
    (hsorted : EntriesSorted entries)
    (hi : i < entries.length) :
    ((DoCompactionWorkDrops smallest ⟨lvl0, files, fun _ => 0⟩ entries).getD
        i false = true ↔
      (dropA smallest entries i ∨ dropB smallest lvl0 files entries i)) := by
  have h := dropLoop_spec smallest lvl0 files hfiles hsnap entries [] false []
    kMaxSequenceNumber (fun _ => 0) (by simpa using hsorted)
    (fun _ => rfl) (fun hcon => absurd hcon (by simp))
    (fun l => Nat.zero_le _)
    (fun l idx hlt hidx => absurd hidx (Nat.not_lt_zero idx)) i hi
  simpa [DoCompactionWorkDrops] using h

theorem compaction_drop_iff_witness :
    (10 : Nat) < kMaxSequenceNumber ∧
    ((DoCompactionWorkDrops 10 ⟨0, fun _ => [], fun _ => 0⟩
        [⟨[1], 5, .typeDeletion⟩]).getD 0 false = true ↔
      (dropA 10 [⟨[1], 5, .typeDeletion⟩] 0 ∨
       dropB 10 0 (fun _ => []) [⟨[1], 5, .typeDeletion⟩] 0)) :=
  ⟨by decide,
    compaction_drop_iff 10 0 (fun _ => []) [⟨[1], 5, .typeDeletion⟩] 0
      (by
        intro l
        exact ⟨by simp, by intro a b ha hb hab; simp at ha⟩)
      (by decide)
      (by
        intro a b hab hb
        simp at hb
        omega)
      (by decide)⟩
